import Mathlib

/-!
# Two concurrent FIFO queues

A shallow embedding of the two Go programs of the repository:

* `lock-concurrent-queue/queue.go`: the two-lock queue (`Queue`, `Init`,
  `Enqueue`, `Dequeue`), namespace `TwoLock`;
* `lock-free-concurrent-queue/queue.go`: the Michael-Scott queue on
  `atomic.Pointer` (`queue_t`, `initialize`, `enqueue`, `dequeue`), namespace
  `LockFree`.

The Go heap is a list of nodes; a pointer is `none` (nil) or `some a`, the
index of a node in that list; `&Node{...}` appends a node to the list.
Node values are Go `int`s that the queues only copy, never compute with, so
they are modelled by `Int`.

The calls are embedded as functions that run one call to completion
(sequential use; the retry loops of the lock-free queue take the number of
iterations allowed as fuel). The lock-free queue is embedded a second time as
a step function `LockFree.step` in which every atomic `Load` and
`CompareAndSwap` is one step of one thread, so that a schedule (a list of
thread indices) is an interleaving; `LockFree.solo_run` relates the two.
-/

/-- Ways in which a call does not return normally. -/
inductive Fault
  /-- a nil pointer is dereferenced (a Go run-time panic) -/
  | nilDeref
  /-- `Lock()` on a mutex that is held and that nobody will release -/
  | blocked
  /-- the retry loop did not finish within the iterations allowed -/
  | outOfFuel
deriving DecidableEq, Repr

deriving instance DecidableEq for Except

/-- A Go pointer to a node: nil, or the address of a node of the heap. -/
abbrev Ptr := Option Nat

/-- A call made by a user of either queue. -/
inductive Op
  | enq (v : Int)
  | deq
deriving DecidableEq, Repr

/-- Follow the `next` pointers from `p` through at most `fuel` nodes: the
addresses visited, when the chain ends in nil within the fuel. -/
def walk {α : Type} (nxt : α → Ptr) (heap : List α) : Nat → Ptr → Option (List Nat)
  | _, none => some []
  | 0, some _ => none
  | fuel + 1, some a =>
    match heap[a]? with
    | none => none
    | some n => (walk nxt heap fuel (nxt n)).map (fun l => a :: l)

/-- The list `l` is exactly the chain of `next` pointers that starts at `p`
and ends in nil. -/
def NextChain {α : Type} (nxt : α → Ptr) (heap : List α) : Ptr → List Nat → Prop
  | p, [] => p = none
  | p, a :: l => p = some a ∧ ∃ n, heap[a]? = some n ∧ NextChain nxt heap (nxt n) l

/-- The value stored at each address of `l` (0 for an address outside the heap). -/
def valuesAt {α : Type} (val : α → Int) (heap : List α) (l : List Nat) : List Int :=
  l.map (fun a => match heap[a]? with
    | some n => val n
    | none => 0)

/-- The chain from the head, when there is one: it is acyclic and `tail` is
one of its nodes. -/
def OnChain (tail : Ptr) : Option (List Nat) → Prop
  | none => False
  | some l => l.Nodup ∧ tail ∈ l.map some

instance (tail : Ptr) : (o : Option (List Nat)) → Decidable (OnChain tail o)
  | none => isFalse (fun h => h)
  | some l => inferInstanceAs (Decidable (l.Nodup ∧ tail ∈ l.map some))

/-! ## The abstract unbounded FIFO queue -/

namespace Fifo

/-- One call on the abstract FIFO queue `xs` with caller slot `slot`:
the new contents, the new slot, and for a dequeue whether a value was
found. -/
def step (xs : List Int) (slot : Int) : Op → List Int × Int × Option Bool
  | .enq v => (xs ++ [v], slot, none)
  | .deq =>
    match xs with
    | [] => ([], slot, some false)
    | x :: rest => (rest, x, some true)

/-- The contents of the abstract queue after the calls `ops`. -/
def contents : List Int → Int → List Op → List Int
  | xs, _, [] => xs
  | xs, slot, op :: ops => contents (step xs slot op).1 (step xs slot op).2.1 ops

/-- The results of the dequeues among `ops`, in order: whether a value was
found, and the content of the caller's slot after the call. -/
def results : List Int → Int → List Op → List (Bool × Int)
  | _, _, [] => []
  | xs, slot, op :: ops =>
    match (step xs slot op).2.2 with
    | none => results (step xs slot op).1 (step xs slot op).2.1 ops
    | some found =>
      (found, (step xs slot op).2.1) :: results (step xs slot op).1 (step xs slot op).2.1 ops

/-- The caller's slot after the calls `ops`. -/
def slot : List Int → Int → List Op → Int
  | _, s, [] => s
  | xs, s, op :: ops => slot (step xs s op).1 (step xs s op).2.1 ops

end Fifo

/-- The calls of a round trip: enqueue the elements of `vs` in order, then
dequeue `vs.length` times, then dequeue once more. -/
def roundTrip (vs : List Int) : List Op :=
  vs.map Op.enq ++ (List.replicate vs.length Op.deq ++ [Op.deq])

/-! ## The two-lock queue (`lock-concurrent-queue/queue.go`) -/

namespace TwoLock

/-- `type Node struct { value int; next *Node }` -/
structure Node where
  value : Int
  next : Ptr
deriving DecidableEq, Repr

/-- `type Queue struct { head, tail *Node; headLock, tailLock sync.Mutex }`,
together with the heap its nodes live in. A mutex is `true` when held. -/
structure Queue where
  heap : List Node
  head : Ptr
  tail : Ptr
  headLock : Bool
  tailLock : Bool
deriving DecidableEq, Repr

/-- `var q Queue`: the zero value (nil pointers, unlocked mutexes), in a
program whose heap is `heap`. -/
def Queue.zero (heap : List Node) : Queue :=
  { heap := heap, head := none, tail := none, headLock := false, tailLock := false }

/-- `func (q *Queue) Init()` -/
def Init (q : Queue) : Queue :=
  -- tmp := &Node{}
  let tmp := q.heap.length
  -- q.head = tmp; q.tail = tmp
  { q with heap := q.heap ++ [{ value := 0, next := none }], head := some tmp, tail := some tmp }

/-- `func (q *Queue) Enqueue(value int)` -/
def Enqueue (q : Queue) (value : Int) : Except Fault Queue :=
  -- tmp := &Node{value: value, next: nil}
  let tmp := q.heap.length
  let heap1 := q.heap ++ [{ value := value, next := none }]
  -- q.tailLock.Lock()
  if q.tailLock then .error .blocked else
  -- q.tail.next = tmp
  match q.tail with
  | none => .error .nilDeref
  | some t =>
    match heap1[t]? with
    | none => .error .nilDeref
    | some n =>
      -- q.tail = tmp; q.tailLock.Unlock()
      .ok { q with heap := heap1.set t { n with next := some tmp }, tail := some tmp,
                   tailLock := false }

/-- `func (q *Queue) Dequeue(value *int) int`: the queue after the call, the
content of `*value` after the call, and the value returned. -/
def Dequeue (q : Queue) (value : Int) : Except Fault (Queue × Int × Int) :=
  -- q.headLock.Lock()
  if q.headLock then .error .blocked else
  -- tmp := q.head
  match q.head with
  | none => .error .nilDeref
  | some tmp =>
    -- newHead := tmp.next
    match q.heap[tmp]? with
    | none => .error .nilDeref
    | some n =>
      match n.next with
      | none =>
        -- q.headLock.Unlock(); return -1
        .ok ({ q with headLock := false }, value, -1)
      | some newHead =>
        -- *value = newHead.value
        match q.heap[newHead]? with
        | none => .error .nilDeref
        | some m =>
          -- q.head = newHead; q.headLock.Unlock(); return 0
          .ok ({ q with head := some newHead, headLock := false }, m.value, 0)

/-- The calls `ops` made one after the other by one caller whose slot `val`
is passed to every `Dequeue` (as in the example of the source's `main`): the
final queue, the final slot, and for every `Dequeue` the value returned and
the slot after the call. -/
def run : Queue → Int → List Op → Except Fault (Queue × Int × List (Int × Int))
  | q, val, [] => .ok (q, val, [])
  | q, val, .enq v :: ops =>
    match Enqueue q v with
    | .error e => .error e
    | .ok q1 => run q1 val ops
  | q, val, .deq :: ops =>
    match Dequeue q val with
    | .error e => .error e
    | .ok (q1, val1, r) =>
      match run q1 val1 ops with
      | .error e => .error e
      | .ok (q2, val2, rs) => .ok (q2, val2, (r, val1) :: rs)

/-- The addresses of the nodes from `q.head` on, in `next` order, when that
chain ends in nil. -/
def nodes (q : Queue) : Option (List Nat) :=
  walk Node.next q.heap q.heap.length q.head

/-- The values of the nodes strictly after `q.head`, in `next` order. -/
def contents (q : Queue) : Option (List Int) :=
  (nodes q).map (fun l => valuesAt Node.value q.heap l.tail)

/-- Both mutexes are free, the chain from `head` ends in nil, and `tail` is
its last node. -/
def WF (q : Queue) : Prop :=
  q.headLock = false ∧ q.tailLock = false ∧ q.tail ≠ none ∧
    (nodes q).bind List.getLast? = q.tail

instance (q : Queue) : Decidable (WF q) := by
  unfold WF; infer_instance

/-- The structural invariant: `head` and `tail` are not nil, the chain of
`next` pointers from `head` is finite (it ends in nil and repeats no node),
and `tail` is reached by following `next` from `head`. -/
def Shape (q : Queue) : Prop :=
  q.head ≠ none ∧ q.tail ≠ none ∧ OnChain q.tail (nodes q)

instance (q : Queue) : Decidable (Shape q) := by
  unfold Shape; infer_instance

/-- A well-formed queue, with its chain named: both mutexes are free, the
chain from `head` is `h :: rest`, and `tail` is the last node of it. -/
def Rep (q : Queue) (h : Nat) (rest : List Nat) : Prop :=
  q.headLock = false ∧ q.tailLock = false ∧ q.head = some h ∧
    NextChain Node.next q.heap (some h) (h :: rest) ∧ q.tail = (h :: rest).getLast?

/-- The value `Dequeue` returns for the abstract answer `found`. -/
def code (found : Bool) : Int := if found then 0 else -1

/-- A queue holding the single value 5: a sentinel at address 0 and one data
node at address 1. -/
def sample : Queue :=
  { heap := [{ value := 0, next := some 1 }, { value := 5, next := none }],
    head := some 0, tail := some 1, headLock := false, tailLock := false }

/-- A memory location of the two-lock queue: the fields `head` and `tail`
of the `Queue`, and the fields `next` and `value` of the node at an address. -/
inductive Loc
  | head
  | tail
  | next (a : Nat)
  | value (a : Nat)
deriving DecidableEq, Repr

/-- The locations that `Enqueue` writes inside its critical section:
`q.tail.next = tmp` (line 63) and `q.tail = tmp` (line 64). -/
def enqueueWrites (q : Queue) : List Loc :=
  match q.tail with
  | none => []
  | some t => [.next t, .tail]

/-- The locations that `Dequeue` reads or writes inside its critical
section: `tmp := q.head` (line 86), `newHead := tmp.next` (line 87) and, when
`newHead` is not nil, `*value = newHead.value` (line 92) and
`q.head = newHead` (line 93). -/
def dequeueAccesses (q : Queue) : List Loc :=
  match q.head with
  | none => [.head]
  | some tmp =>
    match q.heap[tmp]? with
    | none => [.head, .next tmp]
    | some n =>
      match n.next with
      | none => [.head, .next tmp]
      | some newHead => [.head, .next tmp, .value newHead]

/-- The content of a location: a pointer for `head`, `tail` and a `next`
field, an integer for a `value` field; nothing for a field of a node that
does not exist. -/
def Queue.read (q : Queue) : Loc → Option (Ptr ⊕ Int)
  | .head => some (.inl q.head)
  | .tail => some (.inl q.tail)
  | .next a => (q.heap[a]?).map (fun n => .inl n.next)
  | .value a => (q.heap[a]?).map (fun n => .inr n.value)

/-- `numProducers := 10` in `main`. -/
def numProducers : Int := 10

/-- `totalOps := 10000` in `main`. -/
def totalOps : Int := 10000

/-- The value that producer `id` enqueues in round `j`:
`q.Enqueue(id*totalOps + j)` (line 143). -/
def enqueuedValue (id j : Int) : Int := id * totalOps + j

/-- The bound the consumers compare `val` against:
`val >= numProducers*totalOps-1` (line 158). -/
def threshold : Int := numProducers * totalOps - 1

/-- The queue reached from `Init` by `Enqueue(5)`. -/
def afterEnqueue5 : Queue :=
  { heap := [{ value := 0, next := some 1 }, { value := 5, next := none }],
    head := some 0, tail := some 1, headLock := false, tailLock := false }

end TwoLock

/-! ## The lock-free queue (`lock-free-concurrent-queue/queue.go`) -/

namespace LockFree

/-- `type node_t struct { value int; next atomic.Pointer[node_t] }` -/
structure node_t where
  value : Int
  next : Ptr
deriving DecidableEq, Repr

/-- `type queue_t struct { Head, Tail atomic.Pointer[node_t] }`, together
with the heap its nodes live in. -/
structure queue_t where
  heap : List node_t
  Head : Ptr
  Tail : Ptr
deriving DecidableEq, Repr

/-- `var Q queue_t`: the zero value, in a program whose heap is `heap`. -/
def queue_t.zero (heap : List node_t) : queue_t :=
  { heap := heap, Head := none, Tail := none }

/-- `atomic.Pointer.CompareAndSwap(old, new)` on a cell holding `cell`: the
new content of the cell and whether the swap happened. -/
def CompareAndSwap (cell old new : Ptr) : Ptr × Bool :=
  if cell = old then (new, true) else (cell, false)

/-- `func initialize(Q *queue_t)` (spelt `initialise` here: the source name is a reserved word of Lean) -/
def initialise (Q : queue_t) : queue_t :=
  -- node := &node_t{}
  let node := Q.heap.length
  -- Q.Head.Store(node); Q.Tail.Store(node)
  { heap := Q.heap ++ [{ value := 0, next := none }], Head := some node, Tail := some node }

/-- The `for` loop of `enqueue` (lines 54-66) run with no other thread
active, for at most `fuel` iterations; `node` is the node to link. -/
def enqueueLoop (node : Nat) : Nat → queue_t → Except Fault queue_t
  | 0, _ => .error .outOfFuel
  | fuel + 1, Q =>
    -- tail := Q.Tail.Load()
    let tail := Q.Tail
    -- next := tail.next.Load()
    match tail with
    | none => .error .nilDeref
    | some t =>
      match Q.heap[t]? with
      | none => .error .nilDeref
      | some tn =>
        let next := tn.next
        -- if tail == Q.Tail.Load()
        if tail = Q.Tail then
          match next with
          | none =>
            -- if tail.next.CompareAndSwap(nil, node) { break }
            let r := CompareAndSwap tn.next none (some node)
            if r.2 then .ok { Q with heap := Q.heap.set t { tn with next := r.1 } }
            else enqueueLoop node fuel Q
          | some _ =>
            -- Q.Tail.CompareAndSwap(tail, next)
            enqueueLoop node fuel { Q with Tail := (CompareAndSwap Q.Tail tail next).1 }
        else enqueueLoop node fuel Q

/-- `func enqueue(Q *queue_t, value int)` run with no other thread active. -/
def enqueue (fuel : Nat) (Q : queue_t) (value : Int) : Except Fault queue_t :=
  -- node := &node_t{value: value}
  let node := Q.heap.length
  let Q1 := { Q with heap := Q.heap ++ [{ value := value, next := none }] }
  match enqueueLoop node fuel Q1 with
  | .error e => .error e
  | .ok Q2 =>
    -- Q.Tail.CompareAndSwap(Q.Tail.Load(), node)
    .ok { Q2 with Tail := (CompareAndSwap Q2.Tail Q2.Tail (some node)).1 }

/-- `func dequeue(Q *queue_t, pvalue *int) bool` run with no other thread
active, for at most `fuel` iterations of its loop: the queue after the call,
the content of `*pvalue` after the call, and the value returned. -/
def dequeue : Nat → queue_t → Int → Except Fault (queue_t × Int × Bool)
  | 0, _, _ => .error .outOfFuel
  | fuel + 1, Q, pvalue =>
    -- head := Q.Head.Load(); tail := Q.Tail.Load()
    let head := Q.Head
    let tail := Q.Tail
    -- next := head.next.Load()
    match head with
    | none => .error .nilDeref
    | some h =>
      match Q.heap[h]? with
      | none => .error .nilDeref
      | some hn =>
        let next := hn.next
        -- if head == Q.Head.Load()
        if head = Q.Head then
          if head = tail then
            match next with
            | none => .ok (Q, pvalue, false)
            | some _ =>
              -- Q.Tail.CompareAndSwap(tail, next)
              dequeue fuel { Q with Tail := (CompareAndSwap Q.Tail tail next).1 } pvalue
          else
            -- *pvalue = next.value
            match next with
            | none => .error .nilDeref
            | some n =>
              match Q.heap[n]? with
              | none => .error .nilDeref
              | some nn =>
                -- if Q.Head.CompareAndSwap(head, next) { break }
                let r := CompareAndSwap Q.Head head next
                if r.2 then .ok ({ Q with Head := r.1 }, nn.value, true)
                else dequeue fuel { Q with Head := r.1 } nn.value
        else dequeue fuel Q pvalue

/-- The calls `ops` made one after the other by one caller whose slot `val`
is passed to every `dequeue`, each call allowed `fuel` loop iterations: the
final queue, the final slot, and for every `dequeue` the value returned and
the slot after the call. -/
def run (fuel : Nat) : queue_t → Int → List Op → Except Fault (queue_t × Int × List (Bool × Int))
  | Q, val, [] => .ok (Q, val, [])
  | Q, val, .enq v :: ops =>
    match enqueue fuel Q v with
    | .error e => .error e
    | .ok Q1 => run fuel Q1 val ops
  | Q, val, .deq :: ops =>
    match dequeue fuel Q val with
    | .error e => .error e
    | .ok (Q1, val1, r) =>
      match run fuel Q1 val1 ops with
      | .error e => .error e
      | .ok (Q2, val2, rs) => .ok (Q2, val2, (r, val1) :: rs)

/-- The addresses of the nodes from `Q.Head` on, in `next` order, when that
chain ends in nil. -/
def nodes (Q : queue_t) : Option (List Nat) :=
  walk node_t.next Q.heap Q.heap.length Q.Head

/-- The values of the nodes strictly after `Q.Head`, in `next` order. -/
def contents (Q : queue_t) : Option (List Int) :=
  (nodes Q).map (fun l => valuesAt node_t.value Q.heap l.tail)

/-- The structural invariant: `Head` and `Tail` are not nil, the chain of
`next` pointers from `Head` is finite (it ends in nil and repeats no node),
and `Tail` is reached by following `next` from `Head`. -/
def Shape (Q : queue_t) : Prop :=
  Q.Head ≠ none ∧ Q.Tail ≠ none ∧ OnChain Q.Tail (nodes Q)

instance (Q : queue_t) : Decidable (Shape Q) := by
  unfold Shape; infer_instance

/-- A queue whose `Tail` does not lag: the chain from `Head` is `h :: rest`
and `Tail` is the last node of it. -/
def Rep (Q : queue_t) (h : Nat) (rest : List Nat) : Prop :=
  Q.Head = some h ∧ NextChain node_t.next Q.heap (some h) (h :: rest) ∧
    Q.Tail = (h :: rest).getLast?

/-! ### The lock-free queue, one atomic operation at a time -/

/-- Where a thread stands in `lock-free-concurrent-queue/queue.go`: between
two calls, or about to execute the atomic operation of the named line. -/
inductive PC
  /-- between two calls (the next step enters the next call, if any) -/
  | idle
  /-- `tail := Q.Tail.Load()` -/
  | L55
  /-- `next := tail.next.Load()` -/
  | L56
  /-- `if tail == Q.Tail.Load()` and the test `next == nil` -/
  | L57
  /-- `tail.next.CompareAndSwap(nil, node)` -/
  | L59
  /-- `Q.Tail.CompareAndSwap(tail, next)` in `enqueue` -/
  | L63
  /-- the argument `Q.Tail.Load()` of line 67 -/
  | L67load
  /-- `Q.Tail.CompareAndSwap(_, node)` of line 67 -/
  | L67cas
  /-- `head := Q.Head.Load()` -/
  | L96
  /-- `tail := Q.Tail.Load()` -/
  | L97
  /-- `next := head.next.Load()` -/
  | L98
  /-- `if head == Q.Head.Load()` and the tests `head == tail`, `next == nil` -/
  | L99
  /-- `Q.Tail.CompareAndSwap(tail, next)` in `dequeue` -/
  | L104
  /-- `*pvalue = next.value` -/
  | L106
  /-- `Q.Head.CompareAndSwap(head, next)` -/
  | L107
deriving DecidableEq, Repr

/-- A call that has returned, as its caller sees it: an `enqueue` of `v`, or
a `dequeue` with the value returned and the content of `*pvalue` when the
call began and when it returned. -/
inductive Event
  | enqueued (v : Int)
  | dequeued (found : Bool) (before after : Int)
deriving DecidableEq, Repr

/-- A goroutine that makes the calls `todo` one after the other, passing the
address of its variable `pvalue` to every `dequeue`. -/
structure Thread where
  /-- the calls still to make -/
  todo : List Op
  pc : PC
  /-- parameter `value` of `enqueue` -/
  value : Int
  /-- local `node` of `enqueue` -/
  node : Ptr
  /-- local `head` of `dequeue` -/
  head : Ptr
  /-- local `tail` of `enqueue` and of `dequeue` -/
  tail : Ptr
  /-- local `next` of `enqueue` and of `dequeue` -/
  next : Ptr
  /-- the value of the argument `Q.Tail.Load()` of line 67 -/
  old : Ptr
  /-- the caller's variable that `pvalue` points to -/
  pvalue : Int
  /-- the content of `*pvalue` when the current `dequeue` was called -/
  pvalue0 : Int
  /-- the calls that have returned, oldest first -/
  log : List Event
deriving DecidableEq, Repr

/-- A thread that has not started, with `slot` in its variable. -/
def Thread.new (slot : Int) (todo : List Op) : Thread :=
  { todo := todo, pc := .idle, value := 0, node := none, head := none, tail := none,
    next := none, old := none, pvalue := slot, pvalue0 := slot, log := [] }

/-- One step of thread `t` on the shared queue `Q`: the atomic operation at
`t.pc` together with the local computation that follows it up to the next
atomic operation. A nil dereference is a fault. -/
def stepThread (Q : queue_t) (t : Thread) : Except Fault (queue_t × Thread) :=
  match t.pc with
  | .idle =>
    match t.todo with
    | [] => .ok (Q, t)
    | .enq v :: rest =>
      -- line 53: node := &node_t{value: value}
      .ok ({ Q with heap := Q.heap ++ [{ value := v, next := none }] },
           { t with todo := rest, value := v, node := some Q.heap.length, pc := .L55 })
    | .deq :: rest =>
      .ok (Q, { t with todo := rest, pvalue0 := t.pvalue, pc := .L96 })
  | .L55 => .ok (Q, { t with tail := Q.Tail, pc := .L56 })
  | .L56 =>
    match t.tail with
    | none => .error .nilDeref
    | some a =>
      match Q.heap[a]? with
      | none => .error .nilDeref
      | some n => .ok (Q, { t with next := n.next, pc := .L57 })
  | .L57 =>
    if t.tail = Q.Tail then
      if t.next = none then .ok (Q, { t with pc := .L59 })
      else .ok (Q, { t with pc := .L63 })
    else .ok (Q, { t with pc := .L55 })
  | .L59 =>
    match t.tail with
    | none => .error .nilDeref
    | some a =>
      match Q.heap[a]? with
      | none => .error .nilDeref
      | some n =>
        let r := CompareAndSwap n.next none t.node
        .ok ({ Q with heap := Q.heap.set a { n with next := r.1 } },
             { t with pc := if r.2 then .L67load else .L55 })
  | .L63 =>
    .ok ({ Q with Tail := (CompareAndSwap Q.Tail t.tail t.next).1 }, { t with pc := .L55 })
  | .L67load => .ok (Q, { t with old := Q.Tail, pc := .L67cas })
  | .L67cas =>
    .ok ({ Q with Tail := (CompareAndSwap Q.Tail t.old t.node).1 },
         { t with pc := .idle, log := t.log ++ [.enqueued t.value] })
  | .L96 => .ok (Q, { t with head := Q.Head, pc := .L97 })
  | .L97 => .ok (Q, { t with tail := Q.Tail, pc := .L98 })
  | .L98 =>
    match t.head with
    | none => .error .nilDeref
    | some a =>
      match Q.heap[a]? with
      | none => .error .nilDeref
      | some n => .ok (Q, { t with next := n.next, pc := .L99 })
  | .L99 =>
    if t.head = Q.Head then
      if t.head = t.tail then
        if t.next = none then
          -- return false
          .ok (Q, { t with pc := .idle, log := t.log ++ [.dequeued false t.pvalue0 t.pvalue] })
        else .ok (Q, { t with pc := .L104 })
      else .ok (Q, { t with pc := .L106 })
    else .ok (Q, { t with pc := .L96 })
  | .L104 =>
    .ok ({ Q with Tail := (CompareAndSwap Q.Tail t.tail t.next).1 }, { t with pc := .L96 })
  | .L106 =>
    match t.next with
    | none => .error .nilDeref
    | some a =>
      match Q.heap[a]? with
      | none => .error .nilDeref
      | some n => .ok (Q, { t with pvalue := n.value, pc := .L107 })
  | .L107 =>
    let r := CompareAndSwap Q.Head t.head t.next
    if r.2 then
      -- break; return true
      .ok ({ Q with Head := r.1 },
           { t with pc := .idle, log := t.log ++ [.dequeued true t.pvalue0 t.pvalue] })
    else .ok ({ Q with Head := r.1 }, { t with pc := .L96 })

/-- The shared queue, the threads, and whether the process has died of a
panic. -/
structure System where
  Q : queue_t
  threads : List Thread
  panicked : Bool
deriving DecidableEq, Repr

/-- The scheduler lets thread `i` take its next step. A panic of any
thread kills the process: nothing moves afterwards. -/
def step (s : System) (i : Nat) : System :=
  if s.panicked then s else
  match s.threads[i]? with
  | none => s
  | some t =>
    match stepThread s.Q t with
    | .error _ => { s with panicked := true }
    | .ok (Q1, t1) => { s with Q := Q1, threads := s.threads.set i t1 }

/-- An interleaving: the threads named by `sched` step in that order. -/
def exec (s : System) (sched : List Nat) : System :=
  sched.foldl step s

/-- The system once `initialize` has returned, before any of the threads
`progs` (each with the initial content of its slot and the calls it makes)
has taken a step. -/
def start (heap : List node_t) (progs : List (Int × List Op)) : System :=
  { Q := initialise (queue_t.zero heap),
    threads := progs.map (fun p => Thread.new p.1 p.2),
    panicked := false }

/-- The number of calls that have returned. -/
def completed (s : System) : Nat :=
  (s.threads.map (fun t => t.log.length)).sum

/-- The values handed out by the successful dequeues of a thread. -/
def dequeuedBy (t : Thread) : List Int :=
  t.log.filterMap (fun e => match e with
    | .dequeued true _ after => some after
    | _ => none)

/-- The values handed out by all successful dequeues, thread after thread. -/
def dequeuedValues (s : System) : List Int :=
  (s.threads.map dequeuedBy).flatten

/-- Thread `i` repeated `n` times in a schedule. -/
def runs (i n : Nat) : List Nat := List.replicate n i

/-- The results of the dequeues among the calls `log`, as `run` reports
them: the value returned and the slot after the call. -/
def dequeueResults (log : List Event) : List (Bool × Int) :=
  log.filterMap (fun e => match e with
    | .dequeued found _ after => some (found, after)
    | .enqueued _ => none)

/-- Two producers enqueue 1 and 2; one consumer dequeues three times. -/
def lateProgs : List (Int × List Op) :=
  [(0, [.enq 1]), (0, [.enq 2]), (0, [.deq, .deq, .deq])]

/-- Thread 0 links its node and is preempted before line 67; thread 1
enqueues 2 (helping `Tail` forward first); thread 2 dequeues 1 and 2; then
thread 0 executes line 67. -/
def lateSwing : List Nat :=
  runs 0 5 ++ runs 1 11 ++ runs 2 14 ++ runs 0 2

/-- After `lateSwing`, thread 2 calls `dequeue` again and runs up to line 106. -/
def lateSwingThenDequeue : List Nat :=
  lateSwing ++ runs 2 5

/-- As `lateProgs`, but thread 0 goes on to enqueue 3. -/
def lossProgs : List (Int × List Op) :=
  [(0, [.enq 1, .enq 3]), (0, [.enq 2]), (0, [.deq, .deq, .deq])]

/-- After `lateSwing`, thread 2 calls `dequeue` and reads `Head`, `Tail` and
`head.next`; thread 0 enqueues 3; thread 2 goes on to lines 99 and 106. -/
def lossSchedule : List Nat :=
  lateSwing ++ runs 2 4 ++ runs 0 11 ++ runs 2 2

/-- One producer enqueues 5; two consumers, with 0 in their slots, dequeue
once each. -/
def raceProgs : List (Int × List Op) :=
  [(0, [.enq 5]), (0, [.deq]), (0, [.deq])]

/-- Thread 0 enqueues 5; thread 1 runs its dequeue up to line 107; thread 2
dequeues 5; thread 1 loses its head-swing CAS, retries and finds the queue
empty. -/
def raceSchedule : List Nat :=
  runs 0 7 ++ runs 1 6 ++ runs 2 7 ++ runs 1 5

/-- One producer enqueues 5; one consumer, with 9 in its slot, dequeues twice. -/
def calmProgs : List (Int × List Op) :=
  [(0, [.enq 5]), (9, [.deq, .deq])]

/-- The producer runs to completion, then the consumer makes its first call. -/
def calmPrefix : List Nat :=
  runs 0 7 ++ runs 1 7

/-- The consumer makes its second call. -/
def calmCall : List Nat :=
  runs 1 5

/-- The consumer of `calmProgs` after `calmPrefix`. -/
def calmBefore : Thread :=
  { todo := [.deq], pc := .idle, value := 0, node := none, head := some 0, tail := some 1,
    next := some 1, old := none, pvalue := 5, pvalue0 := 9,
    log := [.dequeued true 9 5] }

/-- The consumer of `calmProgs` after `calmPrefix ++ calmCall`. -/
def calmConsumer : Thread :=
  { todo := [], pc := .idle, value := 0, node := none, head := some 1, tail := some 1,
    next := none, old := none, pvalue := 5, pvalue0 := 5,
    log := [.dequeued true 9 5, .dequeued false 5 5] }

/-- A `dequeue` that returned false left `*pvalue` as it was when the call
began (nothing is asked of the other calls). -/
def Event.keepsSlot : Event → Bool
  | .dequeued false before after => after == before
  | _ => true

/-- Every `dequeue` of the thread that returned false left `*pvalue` as it
was when that call began. -/
def Thread.slotKept (t : Thread) : Prop :=
  t.log.all Event.keepsSlot = true

instance (t : Thread) : Decidable t.slotKept := by
  unfold Thread.slotKept; infer_instance

/-- Thread `i` is about to execute line 107 and its `CompareAndSwap` will
fail: `Head` is no longer the `head` it read. -/
def losesHeadCAS (s : System) (i : Nat) : Bool :=
  match s.threads[i]? with
  | none => false
  | some t => t.pc == .L107 && t.head != s.Q.Head

/-- Along the schedule `sched` from `s`, no head-swing `CompareAndSwap`
(line 107) of thread `i` fails. -/
def neverLosesHeadCAS (i : Nat) : System → List Nat → Bool
  | _, [] => true
  | s, j :: sched => !(j == i && losesHeadCAS s i) && neverLosesHeadCAS i (step s j) sched

/-- The current `dequeue` has not reached line 106. -/
def Thread.beforeWrite (t : Thread) : Prop :=
  t.pc = .L96 ∨ t.pc = .L97 ∨ t.pc = .L98 ∨ t.pc = .L99 ∨ t.pc = .L104

/-- Since its log was `base`, every `dequeue` of the thread that returned
false kept the slot, and the slot is as it was when the current `dequeue`
began as long as that call has not reached line 106. -/
def Thread.cleanSince (base : List Event) (t : Thread) : Prop :=
  (∃ new, t.log = base ++ new ∧ new.all Event.keepsSlot = true) ∧
    (t.beforeWrite → t.pvalue = t.pvalue0)

/-- Thread 0 links its node and is preempted before line 67; thread 1
enqueues 2 (helping `Tail` forward first). -/
def staleSwing : List Nat :=
  runs 0 5 ++ runs 1 11

/-- A queue whose `Tail` lags: `Head` and `Tail` are the sentinel, and a
node of value 5 is linked after it (the state between lines 59 and 67 of an
`enqueue(5)` on a fresh queue). -/
def lagOne : queue_t :=
  { heap := [{ value := 0, next := some 1 }, { value := 5, next := none }],
    Head := some 0, Tail := some 0 }

/-- A queue holding 5 and 6 in which one node follows `Tail`. -/
def lagTwo : queue_t :=
  { heap := [{ value := 0, next := some 1 }, { value := 5, next := some 2 },
      { value := 6, next := none }],
    Head := some 0, Tail := some 1 }

end LockFree

/-! ## Chains of `next` pointers -/

section Chain

variable {α : Type} {nxt : α → Ptr} {heap : List α}

theorem NextChain.lt_length {l : List Nat} {p : Ptr} (h : NextChain nxt heap p l) :
    ∀ a ∈ l, a < heap.length := by
  induction l generalizing p with
  | nil => intro a ha; cases ha
  | cons b l ih =>
    obtain ⟨_, n, hn, hl⟩ := h
    intro a ha
    rcases List.mem_cons.1 ha with rfl | ha
    · exact (List.getElem?_eq_some.1 hn).1
    · exact ih hl a ha

theorem NextChain.unique {l₁ l₂ : List Nat} {p : Ptr} (h₁ : NextChain nxt heap p l₁)
    (h₂ : NextChain nxt heap p l₂) : l₁ = l₂ := by
  induction l₁ generalizing p l₂ with
  | nil =>
    cases l₂ with
    | nil => rfl
    | cons b l₂ =>
      have h1 : p = none := h₁
      rw [h1] at h₂
      cases h₂.1
  | cons a l₁ ih =>
    obtain ⟨hp, n, hn, hl⟩ := h₁
    cases l₂ with
    | nil =>
      have h2 : p = none := h₂
      rw [h2] at hp
      cases hp
    | cons b l₂ =>
      obtain ⟨hp2, m, hm, hl2⟩ := h₂
      rw [hp] at hp2
      cases hp2
      rw [hn] at hm
      cases hm
      rw [ih hl hl2]

theorem NextChain.suffix {l₁ l₂ : List Nat} {a : Nat} {p : Ptr}
    (h : NextChain nxt heap p (l₁ ++ a :: l₂)) : NextChain nxt heap (some a) (a :: l₂) := by
  induction l₁ generalizing p with
  | nil => exact ⟨rfl, h.2⟩
  | cons b l₁ ih =>
    obtain ⟨_, n, _, hl⟩ := h
    exact ih hl

theorem NextChain.nodup {l : List Nat} {p : Ptr} (h : NextChain nxt heap p l) : l.Nodup := by
  induction l generalizing p with
  | nil => exact List.nodup_nil
  | cons a l ih =>
    have hp : p = some a := h.1
    obtain ⟨_, n, hn, hl⟩ := h
    refine List.nodup_cons.2 ⟨?_, ih hl⟩
    intro ha
    obtain ⟨s, t, rfl⟩ := List.append_of_mem ha
    have h1 : NextChain nxt heap (some a) (a :: (s ++ a :: t)) := ⟨rfl, n, hn, hl⟩
    have h2 : NextChain nxt heap (some a) (a :: t) := NextChain.suffix hl
    have h3 := congrArg List.length (NextChain.unique h1 h2)
    simp at h3
    omega

theorem NextChain.length_le {l : List Nat} {p : Ptr} (h : NextChain nxt heap p l) :
    l.length ≤ heap.length := by
  have hsub : l ⊆ List.range heap.length := fun a ha =>
    List.mem_range.2 (h.lt_length a ha)
  simpa using (List.subperm_of_subset h.nodup hsub).length_le

theorem walk_eq_some_iff {fuel : Nat} {p : Ptr} {l : List Nat} :
    walk nxt heap fuel p = some l ↔ NextChain nxt heap p l ∧ l.length ≤ fuel := by
  induction fuel generalizing p l with
  | zero =>
    cases p with
    | none =>
      cases l with
      | nil => simp [walk, NextChain]
      | cons a l => simp [walk, NextChain]
    | some a =>
      cases l with
      | nil => simp [walk, NextChain]
      | cons b l => simp [walk]
  | succ fuel ih =>
    cases p with
    | none =>
      cases l with
      | nil => simp [walk, NextChain]
      | cons a l => simp [walk, NextChain]
    | some a =>
      cases l with
      | nil =>
        simp only [walk, NextChain]
        cases heap[a]? <;> simp
      | cons b l =>
        simp only [walk, NextChain]
        constructor
        · intro h
          cases hn : heap[a]? with
          | none => rw [hn] at h; cases h
          | some n =>
            rw [hn] at h
            obtain ⟨l2, hl2, he⟩ := Option.map_eq_some'.1 h
            cases he
            exact ⟨⟨rfl, n, hn, (ih.1 hl2).1⟩, Nat.succ_le_succ (ih.1 hl2).2⟩
        · rintro ⟨⟨hp, m, hm, hl⟩, hlen⟩
          cases hp
          rw [hm]
          exact Option.map_eq_some'.2 ⟨l, ih.2 ⟨hl, Nat.le_of_succ_le_succ hlen⟩, rfl⟩

theorem walk_length_eq_some_iff {p : Ptr} {l : List Nat} :
    walk nxt heap heap.length p = some l ↔ NextChain nxt heap p l :=
  walk_eq_some_iff.trans ⟨fun h => h.1, fun h => ⟨h, h.length_le⟩⟩

/-- A chain survives a change of the heap that keeps the `next` field of
each of its nodes. -/
theorem NextChain.congr {heap2 : List α} {l : List Nat} {p : Ptr}
    (h : NextChain nxt heap p l)
    (hk : ∀ a ∈ l, ∀ n, heap[a]? = some n → ∃ m, heap2[a]? = some m ∧ nxt m = nxt n) :
    NextChain nxt heap2 p l := by
  induction l generalizing p with
  | nil => exact h
  | cons a l ih =>
    obtain ⟨hp, n, hn, hl⟩ := h
    obtain ⟨m, hm, hmn⟩ := hk a (List.mem_cons_self a l) n hn
    refine ⟨hp, m, hm, ?_⟩
    rw [hmn]
    exact ih hl (fun b hb => hk b (List.mem_cons_of_mem a hb))

/-- Linking a node `new` after the last node `t` of a chain. -/
theorem NextChain.snoc {heap2 : List α} {l : List Nat} {t new : Nat} {p : Ptr} {m k : α}
    (h : NextChain nxt heap p (l ++ [t]))
    (hk : ∀ a ∈ l, ∀ n, heap[a]? = some n → ∃ m, heap2[a]? = some m ∧ nxt m = nxt n)
    (ht : heap2[t]? = some m) (hm : nxt m = some new)
    (hnew : heap2[new]? = some k) (hkn : nxt k = none) :
    NextChain nxt heap2 p (l ++ [t, new]) := by
  induction l generalizing p with
  | nil =>
    obtain ⟨hp, _, _, _⟩ := h
    exact ⟨hp, m, ht, by rw [hm]; exact ⟨rfl, k, hnew, by rw [hkn]; rfl⟩⟩
  | cons a l ih =>
    obtain ⟨hp, n, hn, hl⟩ := h
    obtain ⟨m2, hm2, hmn⟩ := hk a (List.mem_cons_self a l) n hn
    refine ⟨hp, m2, hm2, ?_⟩
    rw [hmn]
    exact ih hl (fun b hb => hk b (List.mem_cons_of_mem a hb))

/-- The last node of a chain has a nil `next`. -/
theorem NextChain.last_next {l : List Nat} {t : Nat} {p : Ptr}
    (h : NextChain nxt heap p (l ++ [t])) : ∃ n, heap[t]? = some n ∧ nxt n = none := by
  obtain ⟨_, n, hn, hl⟩ := NextChain.suffix h
  exact ⟨n, hn, hl⟩

theorem getElem?_link_old {x m : α} {t a : Nat} (ha : a < heap.length) (hat : a ≠ t) :
    ((heap ++ [x]).set t m)[a]? = heap[a]? := by
  rw [List.getElem?_set, if_neg (Ne.symm hat), List.getElem?_append_left ha]

theorem getElem?_link_tail {x m : α} {t : Nat} (ht : t < heap.length) :
    ((heap ++ [x]).set t m)[t]? = some m := by
  rw [List.getElem?_set, if_pos rfl, if_pos (by simp; omega)]

theorem getElem?_link_new {x m : α} {t : Nat} (ht : t < heap.length) :
    ((heap ++ [x]).set t m)[heap.length]? = some x := by
  rw [List.getElem?_set, if_neg (by omega), List.getElem?_append_right (Nat.le_refl _)]
  simp

/-- Allocating `x` and storing its address in the `next` field of the last
node `t` of a chain extends the chain by the new node. -/
theorem NextChain.link {l : List Nat} {t : Nat} {p : Ptr} {x m : α}
    (h : NextChain nxt heap p (l ++ [t])) (hm : nxt m = some heap.length)
    (hx : nxt x = none) :
    NextChain nxt ((heap ++ [x]).set t m) p (l ++ [t, heap.length]) := by
  have hnd : (l ++ [t]).Nodup := h.nodup
  have htl : t < heap.length := h.lt_length t (by simp)
  refine NextChain.snoc h ?_ (getElem?_link_tail htl) hm (getElem?_link_new htl) hx
  intro a ha n hn
  have hat : a ≠ t := by
    rintro rfl
    exact (List.nodup_append.1 hnd).2.2 ha (by simp)
  exact ⟨n, by rw [getElem?_link_old (h.lt_length a (by simp [ha])) hat]; exact hn, rfl⟩

theorem valuesAt_append (val : α → Int) (l₁ l₂ : List Nat) :
    valuesAt val heap (l₁ ++ l₂) = valuesAt val heap l₁ ++ valuesAt val heap l₂ := by
  simp [valuesAt]

/-- The values of old nodes are not changed by linking a new node. -/
theorem valuesAt_link (val : α → Int) {l : List Nat} {t : Nat} {x m n : α}
    (hl : ∀ a ∈ l, a < heap.length) (hn : heap[t]? = some n) (hv : val m = val n) :
    valuesAt val ((heap ++ [x]).set t m) l = valuesAt val heap l := by
  unfold valuesAt
  apply List.map_congr_left
  intro a ha
  by_cases hat : a = t
  · subst hat
    rw [getElem?_link_tail (hl a ha), hn]
    exact hv
  · rw [getElem?_link_old (hl a ha) hat]

theorem valuesAt_link_new (val : α → Int) {t : Nat} {x m : α} (ht : t < heap.length) :
    valuesAt val ((heap ++ [x]).set t m) [heap.length] = [val x] := by
  simp [valuesAt, getElem?_link_new ht]

end Chain

/-! ## The abstract FIFO queue -/

namespace Fifo

theorem results_enqs (xs : List Int) (s : Int) (vs : List Int) (ops : List Op) :
    results xs s (vs.map Op.enq ++ ops) = results (xs ++ vs) s ops := by
  induction vs generalizing xs with
  | nil => simp
  | cons v vs ih => simp [results, step, ih]

theorem slot_enqs (xs : List Int) (s : Int) (vs : List Int) (ops : List Op) :
    slot xs s (vs.map Op.enq ++ ops) = slot (xs ++ vs) s ops := by
  induction vs generalizing xs with
  | nil => simp
  | cons v vs ih => simp [slot, step, ih]

theorem results_deqs (vs : List Int) (s : Int) (ops : List Op) :
    results vs s (List.replicate vs.length Op.deq ++ ops)
      = vs.map (fun v => (true, v)) ++ results [] (vs.getLast?.getD s) ops := by
  induction vs generalizing s with
  | nil => simp
  | cons v vs ih =>
    have e : results (v :: vs) s (List.replicate (v :: vs).length Op.deq ++ ops)
        = (true, v) :: results vs v (List.replicate vs.length Op.deq ++ ops) := rfl
    rw [e, ih]
    cases vs with
    | nil => simp
    | cons w ws =>
      simp [List.getLast?_cons_cons, List.getLast?_eq_getLast _ (List.cons_ne_nil w ws)]

theorem slot_deqs (vs : List Int) (s : Int) (ops : List Op) :
    slot vs s (List.replicate vs.length Op.deq ++ ops) = slot [] (vs.getLast?.getD s) ops := by
  induction vs generalizing s with
  | nil => simp
  | cons v vs ih =>
    have e : slot (v :: vs) s (List.replicate (v :: vs).length Op.deq ++ ops)
        = slot vs v (List.replicate vs.length Op.deq ++ ops) := rfl
    rw [e, ih]
    cases vs with
    | nil => simp
    | cons w ws =>
      simp [List.getLast?_cons_cons, List.getLast?_eq_getLast _ (List.cons_ne_nil w ws)]

/-- The round trip on the abstract queue. -/
theorem results_roundTrip (vs : List Int) (s : Int) :
    results [] s (roundTrip vs)
      = vs.map (fun v => (true, v)) ++ [(false, vs.getLast?.getD s)] := by
  rw [roundTrip, results_enqs, List.nil_append, results_deqs]
  simp [results, step]

theorem slot_roundTrip (vs : List Int) (s : Int) :
    slot [] s (roundTrip vs) = vs.getLast?.getD s := by
  rw [roundTrip, slot_enqs, List.nil_append, slot_deqs]
  simp [slot, step]

/-- Two callers whose slots start with different contents get the same
answers, and the same values whenever a value is found. -/
theorem results_slots (xs : List Int) (s₁ s₂ : Int) (ops : List Op) :
    List.Forall₂ (fun p₁ p₂ : Bool × Int => p₁.1 = p₂.1 ∧ (p₂.1 = true → p₁.2 = p₂.2))
      (results xs s₁ ops) (results xs s₂ ops) := by
  induction ops generalizing xs s₁ s₂ with
  | nil => exact List.Forall₂.nil
  | cons op ops ih =>
    cases op with
    | enq v => simpa [results, step] using ih (xs ++ [v]) s₁ s₂
    | deq =>
      cases xs with
      | nil =>
        simp only [results, step]
        exact List.Forall₂.cons ⟨rfl, fun h => by cases h⟩ (ih [] s₁ s₂)
      | cons x xs =>
        simp only [results, step]
        exact List.Forall₂.cons ⟨rfl, fun _ => rfl⟩ (ih xs x x)

end Fifo

/-! ## The two-lock queue in sequential use -/

namespace TwoLock

theorem Rep.nodes_eq {q : Queue} {h : Nat} {rest : List Nat} (r : Rep q h rest) :
    nodes q = some (h :: rest) := by
  unfold nodes
  rw [r.2.2.1]
  exact walk_length_eq_some_iff.2 r.2.2.2.1

theorem Rep.contents_eq {q : Queue} {h : Nat} {rest : List Nat} (r : Rep q h rest) :
    contents q = some (valuesAt Node.value q.heap rest) := by
  simp [contents, r.nodes_eq]

theorem Rep.shape {q : Queue} {h : Nat} {rest : List Nat} (r : Rep q h rest) : Shape q := by
  refine ⟨by rw [r.2.2.1]; simp, ?_, ?_⟩
  · rw [r.2.2.2.2]
    simp [List.getLast?_cons]
  · rw [r.nodes_eq, r.2.2.2.2]
    refine ⟨r.2.2.2.1.nodup, ?_⟩
    rw [List.getLast?_eq_getLast _ (List.cons_ne_nil h rest)]
    exact List.mem_map_of_mem some (List.getLast_mem _)

theorem Rep.wf {q : Queue} {h : Nat} {rest : List Nat} (r : Rep q h rest) : WF q := by
  refine ⟨r.1, r.2.1, ?_, ?_⟩
  · rw [r.2.2.2.2]
    simp [List.getLast?_cons]
  · rw [r.nodes_eq, r.2.2.2.2]
    rfl

theorem WF.rep {q : Queue} (w : WF q) : ∃ h rest, Rep q h rest := by
  obtain ⟨hl, tl, hne, hb⟩ := w
  cases hn : nodes q with
  | none => rw [hn] at hb; exact absurd hb.symm hne
  | some l =>
    rw [hn] at hb
    have hc : NextChain Node.next q.heap q.head l := walk_length_eq_some_iff.1 hn
    cases l with
    | nil => exact absurd hb.symm hne
    | cons a l =>
      have hh : q.head = some a := hc.1
      exact ⟨a, l, hl, tl, hh, hh ▸ hc, hb.symm⟩

theorem rep_Init (heap : List Node) :
    Rep (Init (Queue.zero heap)) heap.length [] := by
  refine ⟨rfl, rfl, rfl, ⟨rfl, ⟨0, none⟩, ?_, rfl⟩, rfl⟩
  simp [Init, Queue.zero]

theorem Rep.Enqueue {q : Queue} {h : Nat} {rest : List Nat} (r : Rep q h rest) (v : Int) :
    ∃ q1, Enqueue q v = .ok q1 ∧ Rep q1 h (rest ++ [q.heap.length]) ∧
      valuesAt Node.value q1.heap (rest ++ [q.heap.length])
        = valuesAt Node.value q.heap rest ++ [v] := by
  obtain ⟨hl, tl, hh, hc, ht⟩ := r
  rcases List.eq_nil_or_concat (h :: rest) with hnil | ⟨l, t, hlt⟩
  · cases hnil
  have hlt2 : h :: rest = l ++ [t] := by rw [hlt, List.concat_eq_append]
  rw [hlt2] at hc ht
  have ht2 : q.tail = some t := by simpa using ht
  obtain ⟨n, hn, _⟩ := hc.last_next
  have htl : t < q.heap.length := hc.lt_length t (by simp)
  have hrest : ∀ a ∈ rest, a < q.heap.length := fun a ha =>
    hc.lt_length a (by rw [← hlt2]; exact List.mem_cons_of_mem h ha)
  refine ⟨Queue.mk ((q.heap ++ [Node.mk v none]).set t (Node.mk n.value (some q.heap.length)))
      q.head (some q.heap.length) q.headLock false, ?_, ⟨hl, rfl, hh, ?_, ?_⟩, ?_⟩
  · simp [TwoLock.Enqueue, tl, ht2, List.getElem?_append_left htl, hn]
  · have := hc.link (x := Node.mk v none) (m := Node.mk n.value (some q.heap.length)) rfl rfl
    have e : h :: (rest ++ [q.heap.length]) = l ++ [t, q.heap.length] := by
      rw [← List.cons_append, hlt2]; simp
    rw [e]
    exact this
  · simp [List.getLast?_cons]
  · show valuesAt Node.value ((q.heap ++ [Node.mk v none]).set t
      (Node.mk n.value (some q.heap.length))) (rest ++ [q.heap.length]) = _
    rw [valuesAt_append,
      valuesAt_link Node.value (m := Node.mk n.value (some q.heap.length)) hrest hn rfl,
      valuesAt_link_new Node.value htl]

theorem Rep.Dequeue_nil {q : Queue} {h : Nat} (r : Rep q h []) (val : Int) :
    Dequeue q val = .ok (q, val, -1) := by
  obtain ⟨hl, _, hh, ⟨_, n, hn, hnil⟩, _⟩ := r
  have hnn : n.next = none := hnil
  simp only [TwoLock.Dequeue, hl, hh, hn, hnn]
  cases q
  simp_all

theorem Rep.Dequeue_cons {q : Queue} {h a : Nat} {rest : List Nat} (r : Rep q h (a :: rest))
    (val : Int) :
    ∃ q1 x, Dequeue q val = .ok (q1, x, 0) ∧ Rep q1 a rest ∧ q1.heap = q.heap ∧
      valuesAt Node.value q.heap (a :: rest) = x :: valuesAt Node.value q.heap rest := by
  obtain ⟨hl, tl, hh, ⟨_, n, hn, hc⟩, ht⟩ := r
  have hna : n.next = some a := hc.1
  obtain ⟨m, hm, _⟩ := hc.2
  refine ⟨{ q with head := some a, headLock := false }, m.value, ?_,
    ⟨rfl, tl, rfl, ?_, ?_⟩, rfl, ?_⟩
  · simp [TwoLock.Dequeue, hl, hh, hn, hna, hm]
  · rw [← hna]; exact hc
  · rw [ht]; simp [List.getLast?_cons_cons]
  · simp [valuesAt, hm]

/-- Simulation: in sequential use from a well-formed queue every call
returns, and the results, the slot and the contents are those of the abstract
FIFO queue started on the values after `head`. -/
theorem Rep.run_sim {q : Queue} {h : Nat} {rest : List Nat} (r : Rep q h rest) (val : Int)
    (ops : List Op) :
    ∃ q1 h1 rest1,
      run q val ops = .ok (q1, Fifo.slot (valuesAt Node.value q.heap rest) val ops,
        (Fifo.results (valuesAt Node.value q.heap rest) val ops).map
          (fun p => (code p.1, p.2))) ∧
      Rep q1 h1 rest1 ∧
      valuesAt Node.value q1.heap rest1
        = Fifo.contents (valuesAt Node.value q.heap rest) val ops := by
  induction ops generalizing q h rest val with
  | nil => exact ⟨q, h, rest, rfl, r, rfl⟩
  | cons op ops ih =>
    cases op with
    | enq v =>
      obtain ⟨q1, he, r1, hv⟩ := r.Enqueue v
      obtain ⟨q2, h2, rest2, hrun, r2, hc⟩ := ih r1 val
      rw [hv] at hrun hc
      exact ⟨q2, h2, rest2, by simp only [run, he, hrun, Fifo.slot, Fifo.results, Fifo.step],
        r2, by simp only [hc, Fifo.contents, Fifo.step]⟩
    | deq =>
      cases rest with
      | nil =>
        obtain ⟨q2, h2, rest2, hrun, r2, hc⟩ := ih r val
        refine ⟨q2, h2, rest2, ?_, r2, ?_⟩
        · simp only [run, r.Dequeue_nil val, hrun, Fifo.slot, Fifo.results, Fifo.step, valuesAt,
            List.map_nil, List.map_cons, code]
          rfl
        · simpa only [Fifo.contents, Fifo.step, valuesAt, List.map_nil] using hc
      | cons a rest =>
        obtain ⟨q1, x, hd, r1, hheap, hv⟩ := r.Dequeue_cons val
        obtain ⟨q2, h2, rest2, hrun, r2, hc⟩ := ih r1 x
        rw [hheap] at hrun hc
        refine ⟨q2, h2, rest2, ?_, r2, ?_⟩
        · simp only [run, hd, hrun, hv, Fifo.slot, Fifo.results, Fifo.step, List.map_cons, code]
          rfl
        · simp only [hv, hc, Fifo.contents, Fifo.step]

end TwoLock

/-! ## The lock-free queue in sequential use -/

namespace LockFree

theorem Rep.lf_nodes_eq {Q : queue_t} {h : Nat} {rest : List Nat} (r : Rep Q h rest) :
    nodes Q = some (h :: rest) := by
  unfold nodes
  rw [r.1]
  exact walk_length_eq_some_iff.2 r.2.1

theorem Rep.lf_contents_eq {Q : queue_t} {h : Nat} {rest : List Nat} (r : Rep Q h rest) :
    contents Q = some (valuesAt node_t.value Q.heap rest) := by
  simp [contents, r.lf_nodes_eq]

theorem Rep.lf_shape {Q : queue_t} {h : Nat} {rest : List Nat} (r : Rep Q h rest) : Shape Q := by
  refine ⟨by rw [r.1]; simp, ?_, ?_⟩
  · rw [r.2.2]
    simp [List.getLast?_cons]
  · rw [r.lf_nodes_eq, r.2.2]
    refine ⟨r.2.1.nodup, ?_⟩
    rw [List.getLast?_eq_getLast _ (List.cons_ne_nil h rest)]
    exact List.mem_map_of_mem some (List.getLast_mem _)

theorem rep_initialise (Q : queue_t) : Rep (initialise Q) Q.heap.length [] := by
  refine ⟨rfl, ⟨rfl, ⟨0, none⟩, ?_, rfl⟩, rfl⟩
  simp [initialise]

theorem Rep.enqueue {Q : queue_t} {h : Nat} {rest : List Nat} (r : Rep Q h rest) (fuel : Nat)
    (v : Int) :
    ∃ Q1, enqueue (fuel + 1) Q v = .ok Q1 ∧ Rep Q1 h (rest ++ [Q.heap.length]) ∧
      valuesAt node_t.value Q1.heap (rest ++ [Q.heap.length])
        = valuesAt node_t.value Q.heap rest ++ [v] := by
  obtain ⟨hh, hc, ht⟩ := r
  rcases List.eq_nil_or_concat (h :: rest) with hnil | ⟨l, t, hlt⟩
  · cases hnil
  have hlt2 : h :: rest = l ++ [t] := by rw [hlt, List.concat_eq_append]
  rw [hlt2] at hc ht
  have ht2 : Q.Tail = some t := by simpa using ht
  obtain ⟨n, hn, hnn⟩ := hc.last_next
  have htl : t < Q.heap.length := hc.lt_length t (by simp)
  have hrest : ∀ a ∈ rest, a < Q.heap.length := fun a ha =>
    hc.lt_length a (by rw [← hlt2]; exact List.mem_cons_of_mem h ha)
  refine ⟨queue_t.mk ((Q.heap ++ [node_t.mk v none]).set t
      (node_t.mk n.value (some Q.heap.length))) Q.Head (some Q.heap.length),
    ?_, ⟨hh, ?_, ?_⟩, ?_⟩
  · simp [LockFree.enqueue, enqueueLoop, CompareAndSwap, ht2, List.getElem?_append_left htl, hn,
      hnn]
  · have := hc.link (x := node_t.mk v none) (m := node_t.mk n.value (some Q.heap.length))
      rfl rfl
    have e : h :: (rest ++ [Q.heap.length]) = l ++ [t, Q.heap.length] := by
      rw [← List.cons_append, hlt2]; simp
    rw [e]
    exact this
  · simp [List.getLast?_cons]
  · show valuesAt node_t.value ((Q.heap ++ [node_t.mk v none]).set t
      (node_t.mk n.value (some Q.heap.length))) (rest ++ [Q.heap.length]) = _
    rw [valuesAt_append,
      valuesAt_link node_t.value (m := node_t.mk n.value (some Q.heap.length)) hrest hn rfl,
      valuesAt_link_new node_t.value htl]

theorem Rep.dequeue_nil {Q : queue_t} {h : Nat} (r : Rep Q h []) (fuel : Nat) (val : Int) :
    dequeue (fuel + 1) Q val = .ok (Q, val, false) := by
  obtain ⟨hh, ⟨_, n, hn, hnil⟩, ht⟩ := r
  have hnn : n.next = none := hnil
  have ht2 : Q.Tail = some h := ht
  simp [dequeue, hh, ht2, hn, hnn]

theorem Rep.dequeue_cons {Q : queue_t} {h a : Nat} {rest : List Nat} (r : Rep Q h (a :: rest))
    (fuel : Nat) (val : Int) :
    ∃ Q1 x, dequeue (fuel + 1) Q val = .ok (Q1, x, true) ∧ Rep Q1 a rest ∧ Q1.heap = Q.heap ∧
      valuesAt node_t.value Q.heap (a :: rest) = x :: valuesAt node_t.value Q.heap rest := by
  obtain ⟨hh, hc0, ht⟩ := r
  obtain ⟨_, n, hn, hc⟩ := hc0
  have hna : n.next = some a := hc.1
  obtain ⟨m, hm, _⟩ := hc.2
  have hnd : (h :: a :: rest).Nodup := NextChain.nodup (p := some h) ⟨rfl, n, hn, hc⟩
  have ht2 : Q.Tail = (a :: rest).getLast? := by rw [ht, List.getLast?_cons_cons]
  have hne : some h ≠ Q.Tail := by
    rw [ht2]
    intro e
    obtain ⟨ys, hys⟩ := List.getLast?_eq_some_iff.1 e.symm
    exact (List.nodup_cons.1 hnd).1 (by rw [hys]; simp)
  refine ⟨queue_t.mk Q.heap (some a) Q.Tail, m.value, ?_, ⟨rfl, ?_, ht2⟩, rfl, ?_⟩
  · simp [dequeue, CompareAndSwap, hh, hn, hna, hm, hne]
  · rw [← hna]; exact hc
  · simp [valuesAt, hm]

/-- Simulation: in sequential use from a queue whose `Tail` does not lag,
every call returns within one loop iteration, and the results, the slot and
the contents are those of the abstract FIFO queue. -/
theorem Rep.lf_run_sim {Q : queue_t} {h : Nat} {rest : List Nat} (r : Rep Q h rest) (fuel : Nat)
    (val : Int) (ops : List Op) :
    ∃ Q1 h1 rest1,
      run (fuel + 1) Q val ops = .ok (Q1, Fifo.slot (valuesAt node_t.value Q.heap rest) val ops,
        Fifo.results (valuesAt node_t.value Q.heap rest) val ops) ∧
      Rep Q1 h1 rest1 ∧
      valuesAt node_t.value Q1.heap rest1
        = Fifo.contents (valuesAt node_t.value Q.heap rest) val ops := by
  induction ops generalizing Q h rest val with
  | nil => exact ⟨Q, h, rest, rfl, r, rfl⟩
  | cons op ops ih =>
    cases op with
    | enq v =>
      obtain ⟨Q1, he, r1, hv⟩ := r.enqueue fuel v
      obtain ⟨Q2, h2, rest2, hrun, r2, hc⟩ := ih r1 val
      rw [hv] at hrun hc
      exact ⟨Q2, h2, rest2, by simp only [run, he, hrun, Fifo.slot, Fifo.results, Fifo.step],
        r2, by simp only [hc, Fifo.contents, Fifo.step]⟩
    | deq =>
      cases rest with
      | nil =>
        obtain ⟨Q2, h2, rest2, hrun, r2, hc⟩ := ih r val
        refine ⟨Q2, h2, rest2, ?_, r2, ?_⟩
        · simp only [run, r.dequeue_nil fuel val, hrun, Fifo.slot, Fifo.results, Fifo.step,
            valuesAt, List.map_nil]
        · simpa only [Fifo.contents, Fifo.step, valuesAt, List.map_nil] using hc
      | cons a rest =>
        obtain ⟨Q1, x, hd, r1, hheap, hv⟩ := r.dequeue_cons fuel val
        obtain ⟨Q2, h2, rest2, hrun, r2, hc⟩ := ih r1 x
        rw [hheap] at hrun hc
        refine ⟨Q2, h2, rest2, ?_, r2, ?_⟩
        · simp only [run, hd, hrun, hv, Fifo.slot, Fifo.results, Fifo.step]
        · simp only [hv, hc, Fifo.contents, Fifo.step]

end LockFree

/-! ## The claims on sequential use -/

/-- C1. Single-thread round trip, for both variants: on a just-initialized
queue, enqueuing the elements of `vs` in order and then dequeuing
`vs.length` times succeeds every time (0, resp. true) and yields the elements
of `vs` in order; one further dequeue reports empty (-1, resp. false) and
leaves the caller's slot as the last successful dequeue left it. The
lock-free calls need one loop iteration each. -/
theorem C1_round_trip (vs : List Int) (heapT : List TwoLock.Node)
    (heapL : List LockFree.node_t) (val : Int) (fuel : Nat) :
    (∃ q, TwoLock.run (TwoLock.Init (TwoLock.Queue.zero heapT)) val (roundTrip vs)
        = .ok (q, vs.getLast?.getD val,
            vs.map (fun v => ((0 : Int), v)) ++ [(-1, vs.getLast?.getD val)])) ∧
    (∃ Q, LockFree.run (fuel + 1) (LockFree.initialise (LockFree.queue_t.zero heapL)) val
        (roundTrip vs)
        = .ok (Q, vs.getLast?.getD val,
            vs.map (fun v => (true, v)) ++ [(false, vs.getLast?.getD val)])) := by
  constructor
  · obtain ⟨q, _, _, hrun, _, _⟩ := (TwoLock.rep_Init heapT).run_sim val (roundTrip vs)
    refine ⟨q, ?_⟩
    rw [hrun]
    simp [valuesAt, Fifo.results_roundTrip, Fifo.slot_roundTrip, TwoLock.code]
  · obtain ⟨Q, _, _, hrun, _, _⟩ :=
      (LockFree.rep_initialise (LockFree.queue_t.zero heapL)).lf_run_sim fuel val (roundTrip vs)
    refine ⟨Q, ?_⟩
    rw [hrun]
    simp [valuesAt, Fifo.results_roundTrip, Fifo.slot_roundTrip]

/-- C1 at `vs = [1, 2, 3]`, on empty heaps, with 7 in the caller's slot. -/
theorem C1_round_trip_witness :
    (∃ q, TwoLock.run (TwoLock.Init (TwoLock.Queue.zero [])) 7
        [.enq 1, .enq 2, .enq 3, .deq, .deq, .deq, .deq]
        = .ok (q, 3, [(0, 1), (0, 2), (0, 3), (-1, 3)])) ∧
    (∃ Q, LockFree.run 1 (LockFree.initialise (LockFree.queue_t.zero [])) 7
        [.enq 1, .enq 2, .enq 3, .deq, .deq, .deq, .deq]
        = .ok (Q, 3, [(true, 1), (true, 2), (true, 3), (false, 3)])) :=
  C1_round_trip [1, 2, 3] [] [] 7 0

/-- C2. The two-lock queue refines the abstract FIFO list in sequential use.
With `contents q` the values of the nodes strictly after `q.head`: `Init`
gives a well-formed queue of contents `[]`; on a well-formed queue of
contents `xs`, `Enqueue v` returns and gives contents `xs ++ [v]`; `Dequeue`
on contents `[]` returns -1 and changes nothing; `Dequeue` on contents
`x :: rest` returns 0, writes `x` to the slot and gives contents `rest`;
every sequence of calls returns, with the results, the slot and the contents
of the abstract queue; in particular so does every sequence of calls on an
initialized queue. -/
theorem C2_two_lock_refines_fifo (q : TwoLock.Queue) (xs : List Int) (hwf : TwoLock.WF q)
    (hxs : TwoLock.contents q = some xs) (heap : List TwoLock.Node) (v val : Int)
    (ops : List Op) :
    (TwoLock.WF (TwoLock.Init (TwoLock.Queue.zero heap)) ∧
      TwoLock.contents (TwoLock.Init (TwoLock.Queue.zero heap)) = some []) ∧
    (∃ q1, TwoLock.Enqueue q v = .ok q1 ∧ TwoLock.WF q1 ∧
      TwoLock.contents q1 = some (xs ++ [v])) ∧
    (xs = [] → TwoLock.Dequeue q val = .ok (q, val, -1)) ∧
    (∀ x rest, xs = x :: rest →
      ∃ q1, TwoLock.Dequeue q val = .ok (q1, x, 0) ∧ TwoLock.WF q1 ∧
        TwoLock.contents q1 = some rest) ∧
    (∃ q1, TwoLock.run q val ops
        = .ok (q1, Fifo.slot xs val ops,
            (Fifo.results xs val ops).map (fun p => (TwoLock.code p.1, p.2))) ∧
      TwoLock.WF q1 ∧ TwoLock.contents q1 = some (Fifo.contents xs val ops)) ∧
    (∃ q1, TwoLock.run (TwoLock.Init (TwoLock.Queue.zero heap)) val ops
        = .ok (q1, Fifo.slot [] val ops,
            (Fifo.results [] val ops).map (fun p => (TwoLock.code p.1, p.2))) ∧
      TwoLock.WF q1 ∧ TwoLock.contents q1 = some (Fifo.contents [] val ops)) := by
  obtain ⟨h, rest, r⟩ := hwf.rep
  have hx : valuesAt TwoLock.Node.value q.heap rest = xs :=
    Option.some.inj (r.contents_eq.symm.trans hxs)
  refine ⟨⟨(TwoLock.rep_Init heap).wf, (TwoLock.rep_Init heap).contents_eq⟩, ?_, ?_, ?_, ?_, ?_⟩
  · obtain ⟨q1, he, r1, hv⟩ := r.Enqueue v
    exact ⟨q1, he, r1.wf, by rw [r1.contents_eq, hv, hx]⟩
  · intro hnil
    have hr : rest = [] := by
      rw [hnil] at hx
      simpa [valuesAt] using hx
    subst hr
    exact r.Dequeue_nil val
  · intro x rest1 hcons
    cases rest with
    | nil => rw [hcons] at hx; simp [valuesAt] at hx
    | cons a rest =>
      obtain ⟨q1, y, hd, r1, hheap, hv⟩ := r.Dequeue_cons val
      rw [hx, hcons] at hv
      injection hv with h1 h2
      subst h1
      exact ⟨q1, hd, r1.wf, by rw [r1.contents_eq, hheap, h2]⟩
  · obtain ⟨q1, h1, rest1, hrun, r1, hc⟩ := r.run_sim val ops
    rw [hx] at hrun hc
    exact ⟨q1, hrun, r1.wf, by rw [r1.contents_eq, hc]⟩
  · obtain ⟨q1, h1, rest1, hrun, r1, hc⟩ := (TwoLock.rep_Init heap).run_sim val ops
    exact ⟨q1, hrun, r1.wf, by rw [r1.contents_eq, hc]; rfl⟩

/-- C2 at the queue `sample` (contents `[5]`): `Dequeue` returns 0 with 5 in
the slot and leaves contents `[]`; `Enqueue 6` gives contents `[5, 6]`. -/
theorem C2_two_lock_refines_fifo_witness :
    TwoLock.WF TwoLock.sample ∧ TwoLock.contents TwoLock.sample = some [5] ∧
    (∃ q1, TwoLock.Dequeue TwoLock.sample 9 = .ok (q1, 5, 0) ∧ TwoLock.WF q1 ∧
      TwoLock.contents q1 = some []) ∧
    (∃ q1, TwoLock.Enqueue TwoLock.sample 6 = .ok q1 ∧ TwoLock.WF q1 ∧
      TwoLock.contents q1 = some [5, 6]) :=
  ⟨by decide, by decide,
    (C2_two_lock_refines_fifo TwoLock.sample [5] (by decide) (by decide) [] 6 9 []).2.2.2.1
      5 [] rfl,
    (C2_two_lock_refines_fifo TwoLock.sample [5] (by decide) (by decide) [] 6 9 []).2.1⟩

/-- C3. The two variants share one external contract in sequential use: for
every sequence of calls made one at a time on a freshly initialized two-lock
queue and on a freshly initialized lock-free queue (whatever the two heaps and
the two callers' slots hold), every call returns, there are as many dequeue
results on both sides, the i-th `Dequeue` returns 0 exactly when the i-th
`dequeue` returns true, and in that case both leave the same value in the
caller's slot. -/
theorem C3_same_contract (heapT : List TwoLock.Node) (heapL : List LockFree.node_t)
    (valT valL : Int) (fuel : Nat) (ops : List Op) :
    ∃ q vT rsT Q vL rsL,
      TwoLock.run (TwoLock.Init (TwoLock.Queue.zero heapT)) valT ops = .ok (q, vT, rsT) ∧
      LockFree.run (fuel + 1) (LockFree.initialise (LockFree.queue_t.zero heapL)) valL ops
        = .ok (Q, vL, rsL) ∧
      List.Forall₂ (fun (t : Int × Int) (l : Bool × Int) =>
        (t.1 = 0 ↔ l.1 = true) ∧ (l.1 = true → t.2 = l.2)) rsT rsL := by
  obtain ⟨q, _, _, hT, _, _⟩ := (TwoLock.rep_Init heapT).run_sim valT ops
  obtain ⟨Q, _, _, hL, _, _⟩ :=
    (LockFree.rep_initialise (LockFree.queue_t.zero heapL)).lf_run_sim fuel valL ops
  refine ⟨q, _, _, Q, _, _, hT, hL, ?_⟩
  rw [List.forall₂_map_left_iff]
  refine (Fifo.results_slots _ valT valL ops).imp ?_
  rintro ⟨b₁, v₁⟩ ⟨b₂, v₂⟩ ⟨hb, hv⟩
  have hb' : b₁ = b₂ := hb
  subst hb'
  refine ⟨?_, hv⟩
  cases b₁ <;> simp [TwoLock.code]

/-- C4. Empty on a fresh queue: on a just-initialized queue, whatever the
caller's slot holds, `Queue.Dequeue` returns -1 and `dequeue` returns false
(within one loop iteration), and each leaves the queue and the slot as they
were. -/
theorem C4_empty_on_fresh (heapT : List TwoLock.Node) (heapL : List LockFree.node_t)
    (val : Int) (fuel : Nat) :
    TwoLock.Dequeue (TwoLock.Init (TwoLock.Queue.zero heapT)) val
      = .ok (TwoLock.Init (TwoLock.Queue.zero heapT), val, -1) ∧
    LockFree.dequeue (fuel + 1) (LockFree.initialise (LockFree.queue_t.zero heapL)) val
      = .ok (LockFree.initialise (LockFree.queue_t.zero heapL), val, false) :=
  ⟨(TwoLock.rep_Init heapT).Dequeue_nil val,
    (LockFree.rep_initialise (LockFree.queue_t.zero heapL)).dequeue_nil fuel val⟩

/-- C5. Structural invariant in sequential use, for both variants: after
init and after every sequence of calls made one at a time (each of which
returns), `head` and `tail` are not nil, the chain of `next` pointers from
`head` ends in nil and repeats no node, and `tail` is on that chain. -/
theorem C5_structural_invariant (heapT : List TwoLock.Node) (heapL : List LockFree.node_t)
    (val : Int) (fuel : Nat) (ops : List Op) :
    (∃ q v rs, TwoLock.run (TwoLock.Init (TwoLock.Queue.zero heapT)) val ops = .ok (q, v, rs) ∧
      TwoLock.Shape q) ∧
    (∃ Q v rs, LockFree.run (fuel + 1) (LockFree.initialise (LockFree.queue_t.zero heapL)) val ops
        = .ok (Q, v, rs) ∧ LockFree.Shape Q) := by
  obtain ⟨q, _, _, hT, rT, _⟩ := (TwoLock.rep_Init heapT).run_sim val ops
  obtain ⟨Q, _, _, hL, rL, _⟩ :=
    (LockFree.rep_initialise (LockFree.queue_t.zero heapL)).lf_run_sim fuel val ops
  exact ⟨⟨q, _, _, hT, rT.shape⟩, ⟨Q, _, _, hL, rL.lf_shape⟩⟩


/-! ## The lock-free queue under interleaving -/

namespace LockFree

theorem exec_append (s : System) (a b : List Nat) : exec s (a ++ b) = exec (exec s a) b := by
  simp [exec, List.foldl_append]

theorem exec_cons (s : System) (i : Nat) (sched : List Nat) :
    exec s (i :: sched) = exec (step s i) sched := rfl

/-- After a panic nothing moves. -/
theorem exec_panicked {s : System} (h : s.panicked = true) (sched : List Nat) :
    exec s sched = s := by
  induction sched with
  | nil => rfl
  | cons i sched ih =>
    rw [exec_cons]
    have : step s i = s := by simp [step, h]
    rw [this, ih]

/-! ### A thread running alone takes the steps of the sequential functions -/

theorem runs_add (i a b : Nat) : runs i (a + b) = runs i a ++ runs i b :=
  List.replicate_add a b i

/-- Alone on a queue whose `Tail` does not lag, a thread runs `enqueue` in 7
steps, with the effect of the function `enqueue`. -/
theorem solo_enqueue {Q : queue_t} {h : Nat} {rest : List Nat} (r : Rep Q h rest) (t : Thread)
    (v : Int) (ops : List Op) (hpc : t.pc = .idle) (htodo : t.todo = .enq v :: ops) :
    ∃ Q1 t1, enqueue 1 Q v = .ok Q1 ∧
      exec ⟨Q, [t], false⟩ (runs 0 7) = ⟨Q1, [t1], false⟩ ∧
      t1.pc = .idle ∧ t1.todo = ops ∧ t1.pvalue = t.pvalue ∧
      t1.log = t.log ++ [.enqueued v] := by
  obtain ⟨hh, hc, ht⟩ := r
  rcases List.eq_nil_or_concat (h :: rest) with hnil | ⟨l, tl, hlt⟩
  · cases hnil
  have hlt2 : h :: rest = l ++ [tl] := by rw [hlt, List.concat_eq_append]
  rw [hlt2] at hc ht
  have ht2 : Q.Tail = some tl := by simpa using ht
  obtain ⟨n, hn, hnn⟩ := hc.last_next
  have htl : tl < Q.heap.length := hc.lt_length tl (by simp)
  simp [exec, runs, List.replicate, step, stepThread, CompareAndSwap, hpc, htodo, ht2,
    List.getElem?_append_left htl, hn, hnn, LockFree.enqueue, enqueueLoop]

/-- Alone on an empty queue, a thread runs `dequeue` in 5 steps, with the
effect of the function `dequeue`. -/
theorem solo_dequeue_nil {Q : queue_t} {h : Nat} (r : Rep Q h []) (t : Thread)
    (ops : List Op) (hpc : t.pc = .idle) (htodo : t.todo = .deq :: ops) :
    ∃ t1, dequeue 1 Q t.pvalue = .ok (Q, t1.pvalue, false) ∧
      exec ⟨Q, [t], false⟩ (runs 0 5) = ⟨Q, [t1], false⟩ ∧
      t1.pc = .idle ∧ t1.todo = ops ∧
      t1.log = t.log ++ [.dequeued false t.pvalue t1.pvalue] := by
  obtain ⟨hh, ⟨_, n, hn, hnil⟩, ht⟩ := r
  have hnn : n.next = none := hnil
  have ht2 : Q.Tail = some h := ht
  simp [exec, runs, List.replicate, step, stepThread, hpc, htodo, hh, ht2, hn, hnn, dequeue]
  refine ⟨_, ?_, rfl, ?_, ?_, ?_⟩ <;> rfl

/-- Alone on a non-empty queue whose `Tail` does not lag, a thread runs
`dequeue` in 7 steps, with the effect of the function `dequeue`. -/
theorem solo_dequeue_cons {Q : queue_t} {h a : Nat} {rest : List Nat}
    (r : Rep Q h (a :: rest)) (t : Thread) (ops : List Op) (hpc : t.pc = .idle)
    (htodo : t.todo = .deq :: ops) :
    ∃ Q1 t1, dequeue 1 Q t.pvalue = .ok (Q1, t1.pvalue, true) ∧
      exec ⟨Q, [t], false⟩ (runs 0 7) = ⟨Q1, [t1], false⟩ ∧
      t1.pc = .idle ∧ t1.todo = ops ∧
      t1.log = t.log ++ [.dequeued true t.pvalue t1.pvalue] := by
  obtain ⟨hh, hc0, ht⟩ := r
  obtain ⟨_, n, hn, hc⟩ := hc0
  have hna : n.next = some a := hc.1
  obtain ⟨m, hm, _⟩ := hc.2
  have hnd : (h :: a :: rest).Nodup := NextChain.nodup (p := some h) ⟨rfl, n, hn, hc⟩
  have ht2 : Q.Tail = (a :: rest).getLast? := by rw [ht, List.getLast?_cons_cons]
  have hne : some h ≠ Q.Tail := by
    rw [ht2]
    intro e
    obtain ⟨ys, hys⟩ := List.getLast?_eq_some_iff.1 e.symm
    exact (List.nodup_cons.1 hnd).1 (by rw [hys]; simp)
  simp [exec, runs, List.replicate, step, stepThread, CompareAndSwap, hpc, htodo, hh, hn, hna,
    hm, hne, dequeue]
  refine ⟨_, _, ⟨rfl, ?_⟩, ⟨rfl, rfl⟩, ?_, ?_, ?_⟩ <;> rfl

/-- The two embeddings agree in sequential use: a thread running alone on
a queue whose `Tail` does not lag makes all its calls in finitely many steps,
without panic, and ends with the queue, the slot and the dequeue results that
the function `run` computes (one loop iteration per call). -/
theorem solo_run (ops : List Op) {Q : queue_t} {h : Nat} {rest : List Nat} (r : Rep Q h rest)
    (t : Thread) (hpc : t.pc = .idle) (htodo : t.todo = ops) :
    ∃ n Q1 t1 evs, exec ⟨Q, [t], false⟩ (runs 0 n) = ⟨Q1, [t1], false⟩ ∧
      t1.pc = .idle ∧ t1.todo = [] ∧ t1.log = t.log ++ evs ∧
      run 1 Q t.pvalue ops = .ok (Q1, t1.pvalue, dequeueResults evs) := by
  induction ops generalizing Q h rest t with
  | nil => exact ⟨0, Q, t, [], rfl, hpc, htodo, by simp, rfl⟩
  | cons op ops ih =>
    cases op with
    | enq v =>
      obtain ⟨Q1, t1, he, hx, hpc1, htodo1, hpv, hlog⟩ := solo_enqueue r t v ops hpc htodo
      obtain ⟨Q1', he', r1, _⟩ := r.enqueue 0 v
      rw [he] at he'
      cases he'
      obtain ⟨n, Q2, t2, evs, hx2, hpc2, htodo2, hlog2, hrun⟩ := ih r1 t1 hpc1 htodo1
      refine ⟨7 + n, Q2, t2, .enqueued v :: evs, ?_, hpc2, htodo2, ?_, ?_⟩
      · rw [runs_add, exec_append, hx, hx2]
      · rw [hlog2, hlog]; simp
      · simp only [run, he, dequeueResults, List.filterMap_cons]
        rw [← hpv]
        exact hrun
    | deq =>
      cases rest with
      | nil =>
        obtain ⟨t1, hd, hx, hpc1, htodo1, hlog⟩ := solo_dequeue_nil r t ops hpc htodo
        obtain ⟨n, Q2, t2, evs, hx2, hpc2, htodo2, hlog2, hrun⟩ := ih r t1 hpc1 htodo1
        refine ⟨5 + n, Q2, t2, .dequeued false t.pvalue t1.pvalue :: evs, ?_, hpc2, htodo2, ?_,
          ?_⟩
        · rw [runs_add, exec_append, hx, hx2]
        · rw [hlog2, hlog]; simp
        · simp only [run, hd, hrun, dequeueResults, List.filterMap_cons]
      | cons a rest =>
        obtain ⟨Q1, t1, hd, hx, hpc1, htodo1, hlog⟩ := solo_dequeue_cons r t ops hpc htodo
        obtain ⟨Q1', x, hd', r1, _, _⟩ := r.dequeue_cons 0 t.pvalue
        rw [hd] at hd'
        cases hd'
        obtain ⟨n, Q2, t2, evs, hx2, hpc2, htodo2, hlog2, hrun⟩ := ih r1 t1 hpc1 htodo1
        refine ⟨7 + n, Q2, t2, .dequeued true t.pvalue t1.pvalue :: evs, ?_, hpc2, htodo2, ?_,
          ?_⟩
        · rw [runs_add, exec_append, hx, hx2]
        · rw [hlog2, hlog]; simp
        · simp only [run, hd, hrun, dequeueResults, List.filterMap_cons]

/-! ### The caller's slot under interleaving -/

/-- What a step of a thread does to its log and to its slot, unless the
step is a failing head-swing `CompareAndSwap`: the calls that return are
appended to the log, a `dequeue` that returns false does so with the slot as
it was when the call began, and the slot is not written before line 106. -/
theorem stepThread_log {Q Q1 : queue_t} {t t1 : Thread}
    (h : stepThread Q t = .ok (Q1, t1)) (hp : t.beforeWrite → t.pvalue = t.pvalue0)
    (hl : ¬ (t.pc = .L107 ∧ t.head ≠ Q.Head)) :
    (∃ es, t1.log = t.log ++ es ∧ es.all Event.keepsSlot = true) ∧
      (t1.beforeWrite → t1.pvalue = t1.pvalue0) := by
  unfold Thread.beforeWrite at hp ⊢
  unfold stepThread at h
  split at h
  all_goals (try split at h)
  all_goals (try split at h)
  all_goals (try split at h)
  all_goals (try simp only [CompareAndSwap] at h)
  all_goals (try split_ifs at h)
  all_goals (try cases h)
  all_goals (try ((refine ⟨⟨[], ?_, rfl⟩, ?_⟩ <;> (dsimp only; simp_all)); done))
  all_goals (refine ⟨⟨[_], rfl, ?_⟩, ?_⟩ <;> simp_all [Event.keepsSlot])

theorem stepThread_cleanSince {base : List Event} {Q Q1 : queue_t} {t t1 : Thread}
    (h : stepThread Q t = .ok (Q1, t1)) (hc : t.cleanSince base)
    (hl : ¬ (t.pc = .L107 ∧ t.head ≠ Q.Head)) : t1.cleanSince base := by
  obtain ⟨⟨new, hlog, hall⟩, hp⟩ := hc
  obtain ⟨⟨es, hes, hk⟩, hp1⟩ := stepThread_log h hp hl
  refine ⟨⟨new ++ es, ?_, ?_⟩, hp1⟩
  · rw [hes, hlog, List.append_assoc]
  · rw [List.all_append, hall, hk]; rfl

theorem step_cleanSince {base : List Event} {s : System} {i j : Nat}
    (hinv : ∀ t, s.threads[i]? = some t → t.cleanSince base)
    (hl : ¬ (j = i ∧ losesHeadCAS s i = true)) :
    ∀ t, (step s j).threads[i]? = some t → t.cleanSince base := by
  intro t ht
  unfold step at ht
  split at ht
  · exact hinv t ht
  split at ht
  · exact hinv t ht
  rename_i tj htj
  split at ht
  · exact hinv t ht
  rename_i Q1 t1 hstep
  simp only [List.getElem?_set] at ht
  by_cases hji : j = i
  · subst hji
    have hlen : j < s.threads.length := (List.getElem?_eq_some.1 htj).1
    rw [if_pos rfl, if_pos hlen] at ht
    cases ht
    refine stepThread_cleanSince hstep (hinv tj htj) ?_
    rintro ⟨hpc, hhead⟩
    apply hl
    refine ⟨rfl, ?_⟩
    simp [losesHeadCAS, htj, hpc, hhead]
  · rw [if_neg hji] at ht
    exact hinv t ht

theorem exec_cleanSince {base : List Event} {i : Nat} (sched : List Nat) {s : System}
    (hinv : ∀ t, s.threads[i]? = some t → t.cleanSince base)
    (hn : neverLosesHeadCAS i s sched = true) :
    ∀ t, (exec s sched).threads[i]? = some t → t.cleanSince base := by
  induction sched generalizing s with
  | nil => exact hinv
  | cons j sched ih =>
    rw [exec_cons]
    simp only [neverLosesHeadCAS, Bool.and_eq_true, Bool.not_eq_true', Bool.and_eq_false_iff,
      beq_eq_false_iff_ne, ne_eq] at hn
    refine ih (step_cleanSince hinv ?_) hn.2
    rintro ⟨hji, hlose⟩
    rcases hn.1 with h | h
    · exact h (by simp [hji])
    · rw [hlose] at h; cases h

end LockFree

/-! ## The claims on concurrent use of the lock-free queue -/

set_option maxRecDepth 20000

/-- C6 fails on the code. After the interleaving `lateSwing` of two
enqueues and two dequeues on an initialized queue (no panic so far), `Head`
is the node of value 2, the last of the list, while line 67 of the first
enqueue has just moved `Tail` back to the node of value 1, which was dequeued
already: `Tail` is not reachable from `Head`. -/
theorem C6_tail_not_reachable_from_head :
    (LockFree.exec (LockFree.start [] LockFree.lateProgs) LockFree.lateSwing).panicked = false ∧
    (LockFree.exec (LockFree.start [] LockFree.lateProgs) LockFree.lateSwing).Q
      = { heap := [⟨0, some 1⟩, ⟨1, some 2⟩, ⟨2, none⟩], Head := some 2, Tail := some 1 } ∧
    LockFree.nodes (LockFree.exec (LockFree.start [] LockFree.lateProgs) LockFree.lateSwing).Q
      = some [2] ∧
    ¬ LockFree.Shape (LockFree.exec (LockFree.start [] LockFree.lateProgs) LockFree.lateSwing).Q := by
  decide

/-- C7 fails on the code. After `lateSwingThenDequeue` thread 2 is in
`dequeue`, has passed the consistency check of line 99 (`head` is `Head`) and
taken the `head != tail` branch, about to execute line 106 with the `next`
it read from `head` equal to nil; its next step is a nil dereference. -/
theorem C7_dequeue_dereferences_nil :
    (LockFree.exec (LockFree.start [] LockFree.lateProgs)
        LockFree.lateSwingThenDequeue).panicked = false ∧
    (LockFree.exec (LockFree.start [] LockFree.lateProgs)
        LockFree.lateSwingThenDequeue).Q.Head = some 2 ∧
    (LockFree.exec (LockFree.start [] LockFree.lateProgs)
        LockFree.lateSwingThenDequeue).threads[2]?
      = some { todo := [], pc := .L106, value := 0, node := none, head := some 2,
               tail := some 1, next := none, old := none, pvalue := 2, pvalue0 := 2,
               log := [.dequeued true 0 1, .dequeued true 1 2] } ∧
    (LockFree.step (LockFree.exec (LockFree.start [] LockFree.lateProgs)
        LockFree.lateSwingThenDequeue) 2).panicked = true := by
  decide

/-- C8 fails as stated. In the interleaving `raceSchedule` the consumer
thread 1 writes 5 to its slot at line 106, loses the head-swing
`CompareAndSwap` of line 107 to thread 2, retries, finds the queue empty and
returns false: its slot held 0 when the call began and holds 5 when the call
returns. -/
theorem C8_lost_CAS_leaves_value :
    (LockFree.exec (LockFree.start [] LockFree.raceProgs) LockFree.raceSchedule).panicked
      = false ∧
    (LockFree.exec (LockFree.start [] LockFree.raceProgs) LockFree.raceSchedule).threads.map
        LockFree.Thread.log
      = [[.enqueued 5], [.dequeued false 0 5], [.dequeued true 0 5]] ∧
    ¬ (∀ t ∈ (LockFree.exec (LockFree.start [] LockFree.raceProgs)
          LockFree.raceSchedule).threads, t.slotKept) := by
  decide

/-- C8 as amended. In every interleaving of threads calling `enqueue` and
`dequeue` on an initialized queue, from any point at which a thread is
between two calls (so in particular from the beginning of any one of its
calls): as long as no head-swing `CompareAndSwap` (line 107) of that thread
fails, every `dequeue` of the thread that returns false leaves `*pvalue` as
it was when that call began. -/
theorem C8_slot_kept_without_lost_CAS (heap : List LockFree.node_t)
    (progs : List (Int × List Op)) (pre sched : List Nat) (i : Nat) (t0 t : LockFree.Thread)
    (h0 : (LockFree.exec (LockFree.start heap progs) pre).threads[i]? = some t0)
    (hidle : t0.pc = .idle)
    (hn : LockFree.neverLosesHeadCAS i (LockFree.exec (LockFree.start heap progs) pre) sched
      = true)
    (ht : (LockFree.exec (LockFree.start heap progs) (pre ++ sched)).threads[i]? = some t) :
    ∃ new, t.log = t0.log ++ new ∧ new.all LockFree.Event.keepsSlot = true := by
  rw [LockFree.exec_append] at ht
  refine (LockFree.exec_cleanSince sched ?_ hn t ht).1
  intro t1 ht1
  rw [h0] at ht1
  cases ht1
  exact ⟨⟨[], by simp, rfl⟩, fun hb => by
    unfold LockFree.Thread.beforeWrite at hb
    rw [hidle] at hb
    simp at hb⟩

/-- C8 as amended, at the second call of the consumer of `calmProgs`: it
returns false and leaves 5, the value of the first call, in the slot. -/
theorem C8_slot_kept_without_lost_CAS_witness :
    (LockFree.exec (LockFree.start [] LockFree.calmProgs) LockFree.calmPrefix).threads[1]?
      = some LockFree.calmBefore ∧
    LockFree.calmBefore.pc = .idle ∧
    LockFree.neverLosesHeadCAS 1
      (LockFree.exec (LockFree.start [] LockFree.calmProgs) LockFree.calmPrefix)
      LockFree.calmCall = true ∧
    (LockFree.exec (LockFree.start [] LockFree.calmProgs)
      (LockFree.calmPrefix ++ LockFree.calmCall)).threads[1]? = some LockFree.calmConsumer ∧
    ∃ new, LockFree.calmConsumer.log = LockFree.calmBefore.log ++ new ∧
      new.all LockFree.Event.keepsSlot = true :=
  ⟨by decide, by decide, by decide, by decide,
    C8_slot_kept_without_lost_CAS [] LockFree.calmProgs LockFree.calmPrefix LockFree.calmCall 1
      LockFree.calmBefore LockFree.calmConsumer (by decide) (by decide) (by decide)
      (by decide)⟩

/-- C9 fails on the code, for the lock-free variant. In the interleaving
`lossSchedule` the three enqueues of 1, 2 and 3 have all returned and the
consumer has dequeued 1 and 2; its third `dequeue`, which read `Head`,
`Tail` and `head.next` while line 67 had `Tail` behind `Head`, passes the
check of line 99 and dereferences nil at line 106. The process is dead
whatever is scheduled afterwards: 3 stays in the list and is never handed
out. -/
theorem C9_enqueued_value_never_dequeued (more : List Nat) :
    (LockFree.exec (LockFree.start [] LockFree.lossProgs)
        (LockFree.lossSchedule ++ more)).panicked = true ∧
    (LockFree.exec (LockFree.start [] LockFree.lossProgs)
        (LockFree.lossSchedule ++ more)).threads.map LockFree.Thread.log
      = [[.enqueued 1, .enqueued 3], [.enqueued 2], [.dequeued true 0 1, .dequeued true 1 2]] ∧
    LockFree.dequeuedValues (LockFree.exec (LockFree.start [] LockFree.lossProgs)
        (LockFree.lossSchedule ++ more)) = [1, 2] ∧
    LockFree.contents (LockFree.exec (LockFree.start [] LockFree.lossProgs)
        (LockFree.lossSchedule ++ more)).Q = some [3] := by
  have hp : (LockFree.exec (LockFree.start [] LockFree.lossProgs)
      LockFree.lossSchedule).panicked = true := by decide
  rw [LockFree.exec_append, LockFree.exec_panicked hp]
  decide

/-- C10 fails on the code. After `lateSwingThenDequeue` no thread has
panicked, the calls of threads 0 and 1 have returned, and the third `dequeue`
of thread 2 is under way, at line 106 with `next` nil. From there no
scheduling whatsoever lets a call return: threads 0 and 1 have nothing left
to do, and the first step of thread 2 is a nil dereference that kills the
process. -/
theorem C10_no_call_ever_completes (more : List Nat) :
    (LockFree.exec (LockFree.start [] LockFree.lateProgs)
        LockFree.lateSwingThenDequeue).panicked = false ∧
    (LockFree.exec (LockFree.start [] LockFree.lateProgs)
        LockFree.lateSwingThenDequeue).threads.map (fun t => (t.pc, t.todo))
      = [(.idle, []), (.idle, []), (.L106, [])] ∧
    LockFree.completed (LockFree.exec (LockFree.start [] LockFree.lateProgs)
        (LockFree.lateSwingThenDequeue ++ more))
      = LockFree.completed (LockFree.exec (LockFree.start [] LockFree.lateProgs)
        LockFree.lateSwingThenDequeue) := by
  refine ⟨by decide, by decide, ?_⟩
  rw [LockFree.exec_append]
  generalize hs : LockFree.exec (LockFree.start [] LockFree.lateProgs)
    LockFree.lateSwingThenDequeue = s
  have hstep : ∀ i, LockFree.step s i = s ∨ LockFree.step s i = LockFree.step s 2 := by
    intro i
    match i with
    | 0 => left; subst hs; decide
    | 1 => left; subst hs; decide
    | 2 => right; rfl
    | n + 3 =>
      left
      have hlen : s.threads.length = 3 := by subst hs; decide
      have hnone : s.threads[n + 3]? = none := List.getElem?_eq_none (by omega)
      simp [LockFree.step, hnone]
  have hp : (LockFree.step s 2).panicked = true := by subst hs; decide
  have hc : LockFree.completed (LockFree.step s 2) = LockFree.completed s := by
    subst hs; decide
  induction more with
  | nil => rfl
  | cons i more ih =>
    rw [LockFree.exec_cons]
    rcases hstep i with h | h
    · rw [h]; exact ih
    · rw [h, LockFree.exec_panicked hp, hc]

namespace LockFree

/-- Line 67 run without interruption always moves `Tail` to the new node,
whatever `tail` the loop had read: its expected value is loaded afresh. -/
theorem line67_swings_whatever_the_snapshot (Q : queue_t) (t : Thread)
    (hpc : t.pc = .L67load) :
    ∃ t1 Q2 t2, stepThread Q t = .ok (Q, t1) ∧ stepThread Q t1 = .ok (Q2, t2) ∧
      Q2.Tail = t.node ∧ Q2.heap = Q.heap ∧ Q2.Head = Q.Head ∧ t2.pc = .idle := by
  simp [stepThread, hpc, CompareAndSwap]
  exact ⟨_, _, ⟨rfl, rfl⟩, rfl, rfl, rfl, rfl⟩

end LockFree

/-- C11 fails on the code. After `staleSwing` thread 0 has linked its node
(address 1) and is about to execute line 67; the `tail` it read in the loop
iteration whose link succeeded is the sentinel (address 0), and `Tail` has
been moved since, to the node of thread 1 (address 2). The step of E17,
`CAS(&Q->Tail, tail, node)`, would fail and leave `Tail` at address 2. Line
67 of the code loads `Tail` afresh for its expected value, succeeds, and
moves `Tail` back to address 1. -/
theorem C11_final_CAS_expects_fresh_load :
    (LockFree.exec (LockFree.start [] LockFree.lateProgs) LockFree.staleSwing).threads[0]?.map
        (fun t => (t.pc, t.tail, t.node))
      = some (.L67load, some 0, some 1) ∧
    (LockFree.exec (LockFree.start [] LockFree.lateProgs) LockFree.staleSwing).Q.Tail
      = some 2 ∧
    (LockFree.CompareAndSwap
        (LockFree.exec (LockFree.start [] LockFree.lateProgs) LockFree.staleSwing).Q.Tail
        (some 0) (some 1)) = (some 2, false) ∧
    (LockFree.exec (LockFree.start [] LockFree.lateProgs)
        (LockFree.staleSwing ++ LockFree.runs 0 2)).Q.Tail = some 1 ∧
    (LockFree.exec (LockFree.start [] LockFree.lateProgs)
        (LockFree.staleSwing ++ LockFree.runs 0 2)).threads[0]?.map
        (fun t => (t.pc, t.log))
      = some (.idle, [.enqueued 1]) := by
  decide

/-! ## Further claims on the two-lock queue -/

namespace TwoLock

/-- `Enqueue` writes no location that existed before the call other than
those of `enqueueWrites`. -/
theorem Enqueue_writes_only {q q1 : Queue} {v : Int} (h : Enqueue q v = .ok q1) (loc : Loc)
    (hloc : loc ∉ enqueueWrites q) (hex : q.read loc ≠ none) : q1.read loc = q.read loc := by
  unfold Enqueue at h
  dsimp only at h
  split at h
  · cases h
  split at h
  · cases h
  rename_i t ht
  split at h
  · cases h
  rename_i n hn
  cases h
  simp only [enqueueWrites, ht, List.mem_cons, List.mem_singleton, not_or, List.not_mem_nil,
    or_false] at hloc
  cases loc with
  | head => rfl
  | tail => exact absurd rfl hloc.2
  | next a =>
    have hat : a ≠ t := fun e => hloc.1 (by rw [e])
    have ha : a < q.heap.length := by
      by_contra hge
      exact hex (by simp [Queue.read, List.getElem?_eq_none (Nat.le_of_not_lt hge)])
    simp only [Queue.read, getElem?_link_old ha hat]
  | value a =>
    have ha : a < q.heap.length := by
      by_contra hge
      exact hex (by simp [Queue.read, List.getElem?_eq_none (Nat.le_of_not_lt hge)])
    by_cases hat : a = t
    · subst hat
      have hn' : q.heap[a]? = some n := by
        rw [List.getElem?_append_left ha] at hn; exact hn
      simp only [Queue.read, getElem?_link_tail ha, hn', Option.map_some']
    · simp only [Queue.read, getElem?_link_old ha hat]

/-- `Dequeue` writes no location other than `q.head`. -/
theorem Dequeue_writes_only {q q1 : Queue} {val x r : Int}
    (h : Dequeue q val = .ok (q1, x, r)) (loc : Loc) (hne : loc ≠ .head) :
    q1.read loc = q.read loc := by
  unfold Dequeue at h
  split at h
  · cases h
  split at h
  · cases h
  split at h
  · cases h
  split at h
  · cases h
    cases loc with
    | head => exact absurd rfl hne
    | tail => rfl
    | next a => rfl
    | value a => rfl
  · split at h
    · cases h
    · cases h
      cases loc with
      | head => exact absurd rfl hne
      | tail => rfl
      | next a => rfl
      | value a => rfl

/-- What `Dequeue` returns and leaves in `*value` depends on the queue only
through the head mutex and the locations of `dequeueAccesses`. -/
theorem Dequeue_reads_only {q q2 : Queue} (val : Int) (hl : q2.headLock = q.headLock)
    (hag : ∀ loc ∈ dequeueAccesses q, q2.read loc = q.read loc) :
    (Dequeue q2 val).map (fun r => r.2) = (Dequeue q val).map (fun r => r.2) := by
  have hhead : q2.head = q.head := by
    have := hag .head (by unfold dequeueAccesses; split <;> [simp; (split <;> [simp; (split <;> simp)])])
    simpa [Queue.read] using this
  unfold Dequeue
  rw [hl, hhead]
  cases hlk : q.headLock with
  | true => rfl
  | false =>
    cases hh : q.head with
    | none => rfl
    | some tmp =>
      have hnext : (q2.heap[tmp]?).map (fun n => (Sum.inl n.next : Ptr ⊕ Int))
          = (q.heap[tmp]?).map (fun n => (Sum.inl n.next : Ptr ⊕ Int)) :=
        hag (.next tmp) (by
          unfold dequeueAccesses; rw [hh]; dsimp only
          split <;> [simp; (split <;> simp)])
      cases hn : q.heap[tmp]? with
      | none =>
        rw [hn] at hnext
        have hn2 : q2.heap[tmp]? = none := by simpa using hnext
        simp [hn, hn2]
      | some n =>
        rw [hn] at hnext
        obtain ⟨n2, hn2, he⟩ := Option.map_eq_some'.1 hnext
        have he2 : n2.next = n.next := Sum.inl.inj he
        cases hnn : n.next with
        | none => simp [hn, hn2, he2, hnn, Except.map]
        | some newHead =>
          have hval : (q2.heap[newHead]?).map (fun m => (Sum.inr m.value : Ptr ⊕ Int))
              = (q.heap[newHead]?).map (fun m => (Sum.inr m.value : Ptr ⊕ Int)) :=
            hag (.value newHead) (by simp [dequeueAccesses, hh, hn, hnn])
          cases hm : q.heap[newHead]? with
          | none =>
            rw [hm] at hval
            have hm2 : q2.heap[newHead]? = none := by simpa using hval
            simp [hn, hn2, he2, hnn, hm, hm2]
          | some m =>
            rw [hm] at hval
            obtain ⟨m2, hm2, hev⟩ := Option.map_eq_some'.1 hval
            have hev2 : m2.value = m.value := Sum.inr.inj hev
            simp [hn, hn2, he2, hnn, hm, hm2, hev2, Except.map]

end TwoLock

/-- C15 fails as stated. On the queue just initialized (reachable from
`Init` by no call at all) `head` and `tail` are the same node, the sentinel
at address 0, and the `next` field of that node is both written by `Enqueue`
(line 63: it holds nil before `Enqueue(5)` and the address 1 after) and read
by `Dequeue` (line 87: `Dequeue` returns -1 before that write and 0 after):
the two sets of locations are not disjoint. -/
theorem C15_sentinel_next_is_shared :
    TwoLock.enqueueWrites (TwoLock.Init (TwoLock.Queue.zero [])) = [.next 0, .tail] ∧
    TwoLock.dequeueAccesses (TwoLock.Init (TwoLock.Queue.zero [])) = [.head, .next 0] ∧
    ¬ (∀ loc ∈ TwoLock.enqueueWrites (TwoLock.Init (TwoLock.Queue.zero [])),
        loc ∉ TwoLock.dequeueAccesses (TwoLock.Init (TwoLock.Queue.zero []))) ∧
    (TwoLock.Init (TwoLock.Queue.zero [])).read (.next 0) = some (.inl none) ∧
    (TwoLock.Enqueue (TwoLock.Init (TwoLock.Queue.zero [])) 5).map
        (fun q => q.read (.next 0)) = .ok (some (.inl (some 1))) ∧
    (TwoLock.Dequeue (TwoLock.Init (TwoLock.Queue.zero [])) 9).map (fun r => r.2)
      = .ok (9, -1) ∧
    ((TwoLock.Enqueue (TwoLock.Init (TwoLock.Queue.zero [])) 5).bind
        (fun q => TwoLock.Dequeue q 9)).map (fun r => r.2) = .ok (5, 0) := by
  decide

/-- C15 as amended. For every queue state reachable from `Init` by
`Enqueue` and `Dequeue` calls: when the queue is not empty (`head` and `tail`
are different nodes) no location that `Enqueue` writes is read or written by
`Dequeue`; in any case the only location they can share is the `next` field
of the node `tail` points to, and they share it exactly when the queue is
empty, `head` and `tail` being then the same node. -/
theorem C15_disjoint_unless_empty (heap : List TwoLock.Node) (val : Int) (ops : List Op)
    (q : TwoLock.Queue) (v : Int) (rs : List (Int × Int))
    (hrun : TwoLock.run (TwoLock.Init (TwoLock.Queue.zero heap)) val ops = .ok (q, v, rs)) :
    (q.head ≠ q.tail →
      ∀ loc ∈ TwoLock.enqueueWrites q, loc ∉ TwoLock.dequeueAccesses q) ∧
    (∀ loc, loc ∈ TwoLock.enqueueWrites q → loc ∈ TwoLock.dequeueAccesses q →
      q.head = q.tail ∧ ∃ t, q.tail = some t ∧ loc = .next t) ∧
    (q.head = q.tail ↔ TwoLock.contents q = some []) ∧
    (q.head = q.tail →
      ∃ t, q.tail = some t ∧ TwoLock.Loc.next t ∈ TwoLock.enqueueWrites q ∧
        TwoLock.Loc.next t ∈ TwoLock.dequeueAccesses q) := by
  obtain ⟨q1, h, rest, hrun1, r, _⟩ := (TwoLock.rep_Init heap).run_sim val ops
  rw [hrun1] at hrun
  cases hrun
  have hcont := r.contents_eq
  obtain ⟨_, _, hh, hc, ht⟩ := r
  have hnd : (h :: rest).Nodup := hc.nodup
  obtain ⟨_, n, hn, hc1⟩ := hc
  cases rest with
  | nil =>
    have hnn : n.next = none := hc1
    have ht2 : q.tail = some h := ht
    simp [TwoLock.enqueueWrites, TwoLock.dequeueAccesses, hh, ht2, hn, hnn, hcont, valuesAt]
  | cons a rest =>
    have hna : n.next = some a := hc1.1
    obtain ⟨t, htl⟩ : ∃ t, (a :: rest).getLast? = some t :=
      ⟨_, List.getLast?_eq_getLast _ (List.cons_ne_nil a rest)⟩
    have ht2 : q.tail = some t := by rw [ht, List.getLast?_cons_cons, htl]
    have hth : t ≠ h := by
      rintro rfl
      obtain ⟨ys, hys⟩ := List.getLast?_eq_some_iff.1 htl
      exact (List.nodup_cons.1 hnd).1 (by rw [hys]; simp)
    have hth' : h ≠ t := fun e => hth e.symm
    simp [TwoLock.enqueueWrites, TwoLock.dequeueAccesses, hh, ht2, hn, hna, hcont, valuesAt,
      hth, hth']

/-- C15 as amended, on the queue reached from `Init` by `Enqueue(5)`: it is
not empty, and the locations of `Enqueue` and of `Dequeue` are disjoint. -/
theorem C15_disjoint_unless_empty_witness :
    TwoLock.run (TwoLock.Init (TwoLock.Queue.zero [])) 0 [.enq 5]
      = .ok (TwoLock.afterEnqueue5, 0, []) ∧
    TwoLock.afterEnqueue5.head ≠ TwoLock.afterEnqueue5.tail ∧
    ∀ loc ∈ TwoLock.enqueueWrites TwoLock.afterEnqueue5,
      loc ∉ TwoLock.dequeueAccesses TwoLock.afterEnqueue5 :=
  ⟨by decide, by decide,
    (C15_disjoint_unless_empty [] 0 [.enq 5] TwoLock.afterEnqueue5 0 [] (by decide)).1
      (by decide)⟩

/-- C16. A two-lock `Dequeue` that returns -1 changes nothing. On every
queue whose head mutex is free and whose `head.next` is nil, whatever the
heap, `tail` and the integer at `*value`, the call returns -1 and leaves the
queue (`head`, `tail`, both mutexes, every field of every node) and `*value`
exactly as they were; and on every queue whatsoever, a call that returns -1
has left the queue and `*value` exactly as they were. -/
theorem C16_empty_dequeue_changes_nothing (q : TwoLock.Queue) (value : Int) :
    (∀ h n, q.headLock = false → q.head = some h → q.heap[h]? = some n → n.next = none →
      TwoLock.Dequeue q value = .ok (q, value, -1)) ∧
    (∀ q1 v1, TwoLock.Dequeue q value = .ok (q1, v1, -1) → q1 = q ∧ v1 = value) := by
  constructor
  · intro h n hl hh hn hnn
    simp only [TwoLock.Dequeue, hl, hh, hn, hnn]
    cases q
    simp_all
  · intro q1 v1 hd
    unfold TwoLock.Dequeue at hd
    split at hd
    · cases hd
    rename_i hl
    split at hd
    · cases hd
    split at hd
    · cases hd
    split at hd
    · cases hd
      refine ⟨?_, rfl⟩
      cases q
      simp_all
    · split at hd
      · cases hd
      · simp at hd

/-- C16 on the queue just initialized, with 42 in the slot. -/
theorem C16_empty_dequeue_changes_nothing_witness :
    TwoLock.Dequeue (TwoLock.Init (TwoLock.Queue.zero [])) 42
      = .ok (TwoLock.Init (TwoLock.Queue.zero []), 42, -1) :=
  (C16_empty_dequeue_changes_nothing (TwoLock.Init (TwoLock.Queue.zero [])) 42).1
    0 ⟨0, none⟩ rfl rfl rfl rfl

/-- C18. The stress driver enqueues pairwise distinct values: with
`numProducers = 10` and `totalOps = 10000`, the map
`(id, j) ↦ id*totalOps + j` is injective on `0 ≤ id < numProducers`,
`0 ≤ j < totalOps`; its image is exactly the integers 0 to 99999; the largest
value, that of `id = 9`, `j = 9999`, is `numProducers*totalOps - 1`, the bound
the consumers compare against; and all these values fit a 32-bit `int`, so
the products and sums of the driver do not overflow. -/
theorem C18_driver_values_distinct :
    (∀ id j id' j' : Int, 0 ≤ id → id < TwoLock.numProducers → 0 ≤ j → j < TwoLock.totalOps →
      0 ≤ id' → id' < TwoLock.numProducers → 0 ≤ j' → j' < TwoLock.totalOps →
      TwoLock.enqueuedValue id j = TwoLock.enqueuedValue id' j' → id = id' ∧ j = j') ∧
    (∀ v : Int, (∃ id j, 0 ≤ id ∧ id < TwoLock.numProducers ∧ 0 ≤ j ∧ j < TwoLock.totalOps ∧
      TwoLock.enqueuedValue id j = v) ↔ 0 ≤ v ∧ v ≤ 99999) ∧
    TwoLock.threshold = 99999 ∧
    TwoLock.enqueuedValue 9 9999 = TwoLock.threshold ∧
    (∀ id j : Int, 0 ≤ id → id < TwoLock.numProducers → 0 ≤ j → j < TwoLock.totalOps →
      0 ≤ TwoLock.enqueuedValue id j ∧ TwoLock.enqueuedValue id j ≤ TwoLock.threshold) ∧
    TwoLock.threshold < 2 ^ 31 := by
  simp only [TwoLock.numProducers, TwoLock.totalOps, TwoLock.enqueuedValue, TwoLock.threshold]
  refine ⟨?_, ?_, by norm_num, by norm_num, ?_, by norm_num⟩
  · intro id j id' j' h1 h2 h3 h4 h5 h6 h7 h8 he
    constructor <;> omega
  · intro v
    constructor
    · rintro ⟨id, j, h1, h2, h3, h4, rfl⟩
      constructor <;> omega
    · rintro ⟨h1, h2⟩
      exact ⟨v / 10000, v % 10000, by omega, by omega, by omega, by omega, by omega⟩
  · intro id j h1 h2 h3 h4
    constructor <;> omega

/-- C18 at the value 54321: it is the value of some producer in some
round (producer 5, round 4321). -/
theorem C18_driver_values_distinct_witness :
    (0 ≤ (54321 : Int) ∧ (54321 : Int) ≤ 99999) ∧
    TwoLock.enqueuedValue 5 4321 = 54321 ∧
    ∃ id j, 0 ≤ id ∧ id < TwoLock.numProducers ∧ 0 ≤ j ∧ j < TwoLock.totalOps ∧
      TwoLock.enqueuedValue id j = 54321 :=
  ⟨by decide, by decide, (C18_driver_values_distinct.2.1 54321).2 (by decide)⟩

/-! ## The lock-free queue with a lagging `Tail`, in sequential use -/

namespace LockFree

/-- A well-formed queue, with its chain named. -/
theorem Shape.chain {Q : queue_t} (hs : Shape Q) :
    ∃ h rest t, Q.Head = some h ∧ NextChain node_t.next Q.heap (some h) (h :: rest) ∧
      nodes Q = some (h :: rest) ∧ Q.Tail = some t ∧ t ∈ h :: rest := by
  obtain ⟨hH, hT, hon⟩ := hs
  cases hn : nodes Q with
  | none => rw [hn] at hon; exact hon.elim
  | some l =>
    rw [hn] at hon
    obtain ⟨_, hmem⟩ := hon
    have hc : NextChain node_t.next Q.heap Q.Head l := walk_length_eq_some_iff.1 hn
    cases l with
    | nil => exact absurd hc hH
    | cons h rest =>
      have hh : Q.Head = some h := hc.1
      obtain ⟨t, ht, hteq⟩ := List.mem_map.1 hmem
      exact ⟨h, rest, t, hh, hh ▸ hc, rfl, hteq.symm, ht⟩

/-- A chain from `Head` whose nodes include `Tail` makes a well-formed queue. -/
theorem shape_of_chain {Q : queue_t} {l : List Nat} {t : Nat}
    (hc : NextChain node_t.next Q.heap Q.Head l) (hT : Q.Tail = some t) (ht : t ∈ l) :
    Shape Q := by
  have hn : nodes Q = some l := walk_length_eq_some_iff.2 hc
  refine ⟨?_, by rw [hT]; simp, ?_⟩
  · intro hnone
    rw [hnone] at hc
    cases l with
    | nil => cases ht
    | cons a l => cases hc.1
  · rw [hn, hT]
    exact ⟨hc.nodup, List.mem_map_of_mem some ht⟩

/-- The iterations of the loop of `enqueue` that find `tail.next` not nil
only move `Tail` forward: as many iterations as nodes follow `Tail` bring it
to the last node. -/
theorem enqueueLoop_swings (node : Nat) (post : List Nat) (t : Nat) (Q : queue_t)
    (hT : Q.Tail = some t) (hc : NextChain node_t.next Q.heap (some t) (t :: post))
    (fuel : Nat) :
    enqueueLoop node (fuel + post.length) Q
      = enqueueLoop node fuel { Q with Tail := (t :: post).getLast? } := by
  induction post generalizing t Q with
  | nil =>
    have e : ({ Q with Tail := [t].getLast? } : queue_t) = Q := by
      cases Q; simp_all
    rw [e]; rfl
  | cons a post ih =>
    obtain ⟨_, tn, htn, hc1⟩ := hc
    have hna : tn.next = some a := hc1.1
    have h1 : enqueueLoop node (fuel + (a :: post).length) Q
        = enqueueLoop node (fuel + post.length) { Q with Tail := some a } := by
      show enqueueLoop node (fuel + post.length + 1) Q = _
      simp [enqueueLoop, hT, htn, hna, CompareAndSwap]
    rw [h1, ih a { Q with Tail := some a } rfl (hna ▸ hc1), List.getLast?_cons_cons]

/-- Fewer iterations than nodes follow `Tail`, plus one, do not finish the
loop of `enqueue`. -/
theorem enqueueLoop_short (node : Nat) (post : List Nat) (t : Nat) (Q : queue_t)
    (hT : Q.Tail = some t) (hc : NextChain node_t.next Q.heap (some t) (t :: post))
    (f : Nat) (hf : f ≤ post.length) :
    enqueueLoop node f Q = .error .outOfFuel := by
  induction post generalizing t Q f with
  | nil =>
    have : f = 0 := by simpa using hf
    subst this
    rfl
  | cons a post ih =>
    cases f with
    | zero => rfl
    | succ f =>
      obtain ⟨_, tn, htn, hc1⟩ := hc
      have hna : tn.next = some a := hc1.1
      have h1 : enqueueLoop node (f + 1) Q = enqueueLoop node f { Q with Tail := some a } := by
        simp [enqueueLoop, hT, htn, hna, CompareAndSwap]
      rw [h1]
      exact ih a { Q with Tail := some a } rfl (hna ▸ hc1) f (by simpa using hf)

/-- The iteration of the loop of `enqueue` that finds `tail.next` nil links
the node and ends the loop. -/
theorem enqueueLoop_links (node : Nat) (t : Nat) (tn : node_t) (Q : queue_t)
    (hT : Q.Tail = some t) (htn : Q.heap[t]? = some tn) (hnn : tn.next = none) (fuel : Nat) :
    enqueueLoop node (fuel + 1) Q
      = .ok { Q with heap := Q.heap.set t { value := tn.value, next := some node } } := by
  simp [enqueueLoop, hT, htn, hnn, CompareAndSwap]

/-- `dequeue` on a well-formed queue whose list is the sentinel alone. -/
theorem dequeue_of_chain_nil {Q : queue_t} {h : Nat} (hH : Q.Head = some h)
    (hc : NextChain node_t.next Q.heap (some h) [h]) (hT : Q.Tail = some h) (fuel : Nat)
    (pv : Int) : dequeue (fuel + 1) Q pv = .ok (Q, pv, false) := by
  obtain ⟨_, hn, hhn, hnil⟩ := hc
  have hnn : hn.next = none := hnil
  simp [dequeue, hH, hT, hhn, hnn]

/-- `dequeue` on a queue whose `Head` and `Tail` are the same node, with a
node `n` linked after it: the first iteration moves `Tail` to `n`, the second
takes the value of `n` and moves `Head` to `n`. -/
theorem dequeue_of_lagging {Q : queue_t} {h n : Nat} {hn nn : node_t} (hH : Q.Head = some h)
    (hT : Q.Tail = some h) (hhn : Q.heap[h]? = some hn) (hnext : hn.next = some n)
    (hnn : Q.heap[n]? = some nn) (hne : h ≠ n) (pv : Int) :
    dequeue 1 Q pv = .error .outOfFuel ∧
    ∀ fuel, dequeue (fuel + 2) Q pv = dequeue (fuel + 1) { Q with Tail := some n } pv ∧
      dequeue (fuel + 2) Q pv
        = .ok ({ Q with Head := some n, Tail := some n }, nn.value, true) := by
  refine ⟨by simp [dequeue, hH, hT, hhn, hnext], fun fuel => ?_⟩
  have h1 : dequeue (fuel + 2) Q pv = dequeue (fuel + 1) { Q with Tail := some n } pv := by
    simp [dequeue, hH, hT, hhn, hnext, CompareAndSwap]
  refine ⟨h1, ?_⟩
  rw [h1]
  simp [dequeue, hH, hhn, hnext, hnn, hne, CompareAndSwap]

/-- `dequeue` on a queue whose `Tail` is not the node `Head`, with a node
`n` linked after `Head`: one iteration takes the value of `n` and moves
`Head` to `n`. -/
theorem dequeue_of_ahead {Q : queue_t} {h n t : Nat} {hn nn : node_t} (hH : Q.Head = some h)
    (hT : Q.Tail = some t) (hhn : Q.heap[h]? = some hn) (hnext : hn.next = some n)
    (hnn : Q.heap[n]? = some nn) (hne : h ≠ t) (fuel : Nat) (pv : Int) :
    dequeue (fuel + 1) Q pv = .ok ({ Q with Head := some n }, nn.value, true) := by
  simp [dequeue, hH, hT, hhn, hnext, hnn, hne, CompareAndSwap]

end LockFree

/-! ## Further claims on the lock-free queue in sequential use -/

/-- C17. In sequential use the `Tail` of the lock-free queue never lags.
After `initialize` and after every sequence of calls made one at a time, each
allowed one iteration of its loop, every call has returned, `Tail` is the last
node of the list and its `next` is nil. No call finishes in zero iterations.
A call that takes a helping branch (line 63 of `enqueue`, entered when
`tail.next` is not nil; line 104 of `dequeue`, entered when `Head` and `Tail`
are the same node and its `next` is not nil) does not finish within one
iteration; so no call of a sequential run takes one. -/
theorem C17_tail_never_lags (heap : List LockFree.node_t) (val : Int) (ops : List Op) :
    (∃ Q v rs t tn l,
      LockFree.run 1 (LockFree.initialise (LockFree.queue_t.zero heap)) val ops
        = .ok (Q, v, rs) ∧
      Q.Tail = some t ∧ Q.heap[t]? = some tn ∧ tn.next = none ∧
      LockFree.nodes Q = some l ∧ l.getLast? = some t) ∧
    (∀ Q v, LockFree.enqueue 0 Q v = .error .outOfFuel) ∧
    (∀ Q pv, LockFree.dequeue 0 Q pv = .error .outOfFuel) ∧
    (∀ (Q : LockFree.queue_t) v t tn a, Q.Tail = some t → Q.heap[t]? = some tn →
      tn.next = some a → LockFree.enqueue 1 Q v = .error .outOfFuel) ∧
    (∀ (Q : LockFree.queue_t) pv h hn a, Q.Head = some h → Q.Tail = some h →
      Q.heap[h]? = some hn → hn.next = some a →
      LockFree.dequeue 1 Q pv = .error .outOfFuel) := by
  refine ⟨?_, fun _ _ => rfl, fun _ _ => rfl, ?_, ?_⟩
  · obtain ⟨Q, h, rest, hrun, r, _⟩ :=
      (LockFree.rep_initialise (LockFree.queue_t.zero heap)).lf_run_sim 0 val ops
    obtain ⟨t, ht⟩ : ∃ t, (h :: rest).getLast? = some t :=
      ⟨_, List.getLast?_eq_getLast _ (List.cons_ne_nil h rest)⟩
    obtain ⟨l, hl⟩ := List.getLast?_eq_some_iff.1 ht
    have hc := r.2.1
    rw [hl] at hc
    obtain ⟨tn, htn, hnn⟩ := hc.last_next
    exact ⟨Q, _, _, t, tn, h :: rest, hrun, by rw [r.2.2, ht], htn, hnn, r.lf_nodes_eq, ht⟩
  · intro Q v t tn a hT htn hnn
    have htl : t < Q.heap.length := (List.getElem?_eq_some.1 htn).1
    simp [LockFree.enqueue, LockFree.enqueueLoop, hT, List.getElem?_append_left htl, htn, hnn]
  · intro Q pv h hn a hH hT hhn hnn
    simp [LockFree.dequeue, hH, hT, hhn, hnn]

/-- C12. Lock-free `dequeue` helps a lagging `Tail` instead of reporting
empty. On every well-formed queue whose `Head` and `Tail` are the same node
`h` with `h.next = n` not nil, a `dequeue` run alone does not finish in one
iteration; its first iteration swings `Tail` to `n` and retries; with two
iterations or more it returns true with the value of `n` in `*pvalue`,
leaving `Head = n` and `Tail = n` and the heap as it was. -/
theorem C12_dequeue_helps_lagging_tail (Q : LockFree.queue_t) (h n : Nat)
    (hn : LockFree.node_t) (pv : Int) (hs : LockFree.Shape Q) (hH : Q.Head = some h)
    (hT : Q.Tail = some h) (hhn : Q.heap[h]? = some hn) (hnext : hn.next = some n) :
    ∃ nn, Q.heap[n]? = some nn ∧
      LockFree.dequeue 1 Q pv = .error .outOfFuel ∧
      ∀ fuel,
        LockFree.dequeue (fuel + 2) Q pv
          = LockFree.dequeue (fuel + 1) { Q with Tail := some n } pv ∧
        LockFree.dequeue (fuel + 2) Q pv
          = .ok ({ Q with Head := some n, Tail := some n }, nn.value, true) := by
  obtain ⟨h', rest, t, hH', hc, _, _, _⟩ := hs.chain
  rw [hH] at hH'
  cases hH'
  have hnd : (h :: rest).Nodup := hc.nodup
  obtain ⟨_, hn', hhn', hc1⟩ := hc
  rw [hhn] at hhn'
  cases hhn'
  cases rest with
  | nil =>
    have : hn.next = none := hc1
    rw [hnext] at this
    cases this
  | cons a rest =>
    have ha : hn.next = some a := hc1.1
    rw [hnext] at ha
    cases ha
    obtain ⟨nn, hnn, _⟩ := hc1.2
    have hne : h ≠ n := fun e => (List.nodup_cons.1 hnd).1 (by rw [e]; simp)
    exact ⟨nn, hnn, LockFree.dequeue_of_lagging hH hT hhn hnext hnn hne pv⟩

/-- C12 on the queue `lagOne`, with 9 in the slot: `dequeue` moves `Tail` to
the node of value 5 and returns true with 5. -/
theorem C12_dequeue_helps_lagging_tail_witness :
    LockFree.Shape LockFree.lagOne ∧
    LockFree.dequeue 2 LockFree.lagOne 9
      = .ok ({ LockFree.lagOne with Head := some 1, Tail := some 1 }, 5, true) ∧
    ∃ nn, LockFree.lagOne.heap[1]? = some nn ∧
      LockFree.dequeue 1 LockFree.lagOne 9 = .error .outOfFuel ∧
      ∀ fuel,
        LockFree.dequeue (fuel + 2) LockFree.lagOne 9
          = LockFree.dequeue (fuel + 1) { LockFree.lagOne with Tail := some 1 } 9 ∧
        LockFree.dequeue (fuel + 2) LockFree.lagOne 9
          = .ok ({ LockFree.lagOne with Head := some 1, Tail := some 1 }, nn.value, true) :=
  ⟨by decide, by decide,
    C12_dequeue_helps_lagging_tail LockFree.lagOne 0 1 ⟨0, some 1⟩ 9 (by decide) rfl rfl rfl
      rfl⟩

/-- C13. Solo termination of the lock-free `enqueue` with a lagging `Tail`.
On every well-formed queue, with `post` the nodes that follow `Tail` on the
chain from `Head` and `k` their number, `enqueue(v)` run alone returns with
`k + 1` loop iterations or more and with none fewer; its first `k` iterations
only bring `Tail` to the last node of the list; the call allocates the new
node at the next free address, links it after the last node, leaves `Tail`
on it, and leaves `Head` and the value of every node that existed as they
were. -/
theorem C13_solo_enqueue_lagging_tail (Q : LockFree.queue_t) (v : Int)
    (hs : LockFree.Shape Q) :
    ∃ pre t post Q1,
      LockFree.nodes Q = some (pre ++ t :: post) ∧ Q.Tail = some t ∧
      (∀ fuel, LockFree.enqueue (fuel + post.length + 1) Q v = .ok Q1) ∧
      (∀ f, f ≤ post.length → LockFree.enqueue f Q v = .error .outOfFuel) ∧
      (∀ fuel, LockFree.enqueueLoop Q.heap.length (fuel + post.length)
            { Q with heap := Q.heap ++ [{ value := v, next := none }] }
          = LockFree.enqueueLoop Q.heap.length fuel
            { Q with heap := Q.heap ++ [{ value := v, next := none }],
                     Tail := (t :: post).getLast? }) ∧
      LockFree.nodes Q1 = some (pre ++ t :: post ++ [Q.heap.length]) ∧
      Q1.heap[Q.heap.length]? = some { value := v, next := none } ∧
      Q1.Tail = some Q.heap.length ∧ Q1.Head = Q.Head ∧
      Q1.heap.length = Q.heap.length + 1 ∧
      ∀ a, a < Q.heap.length →
        (Q1.heap[a]?).map LockFree.node_t.value = (Q.heap[a]?).map LockFree.node_t.value := by
  obtain ⟨h, rest, t, hH, hc, hnodes, hT, ht⟩ := hs.chain
  obtain ⟨pre, post, hsplit⟩ := List.append_of_mem ht
  rw [hsplit] at hc hnodes
  -- the chain from `Tail`, and its last node
  have hct : NextChain LockFree.node_t.next Q.heap (some t) (t :: post) := hc.suffix
  obtain ⟨last, hlast⟩ : ∃ last, (t :: post).getLast? = some last :=
    ⟨_, List.getLast?_eq_getLast _ (List.cons_ne_nil t post)⟩
  obtain ⟨l0, hl0⟩ := List.getLast?_eq_some_iff.1 hlast
  have hwhole : pre ++ t :: post = (pre ++ l0) ++ [last] := by
    rw [hl0, List.append_assoc]
  rw [hwhole] at hc
  obtain ⟨ln, hln, hlnn⟩ := hc.last_next
  have hlt : last < Q.heap.length := hc.lt_length last (by simp)
  -- the same chain in the heap with the new node allocated
  have hct1 : NextChain LockFree.node_t.next (Q.heap ++ [{ value := v, next := none }])
      (some t) (t :: post) :=
    hct.congr (fun a ha n hn =>
      ⟨n, by rw [List.getElem?_append_left (hct.lt_length a ha)]; exact hn, rfl⟩)
  have hln1 : (Q.heap ++ [({ value := v, next := none } : LockFree.node_t)])[last]? = some ln := by
    rw [List.getElem?_append_left hlt]; exact hln
  have hswing := LockFree.enqueueLoop_swings Q.heap.length post t
    { Q with heap := Q.heap ++ [{ value := v, next := none }] } hT hct1
  have hlink := LockFree.enqueueLoop_links Q.heap.length last ln
    { Q with heap := Q.heap ++ [{ value := v, next := none }], Tail := some last } rfl hln1 hlnn
  refine ⟨pre, t, post,
    LockFree.queue_t.mk ((Q.heap ++ [LockFree.node_t.mk v none]).set last
      (LockFree.node_t.mk ln.value (some Q.heap.length))) Q.Head (some Q.heap.length),
    hnodes, hT, ?_, ?_, ?_, ?_, ?_, rfl, rfl, by simp, ?_⟩
  · intro fuel
    have e : fuel + post.length + 1 = (fuel + 1) + post.length := by omega
    simp only [LockFree.enqueue]
    rw [e, hswing (fuel + 1), hlast, hlink fuel]
    simp [LockFree.CompareAndSwap]
  · intro f hf
    simp only [LockFree.enqueue]
    rw [LockFree.enqueueLoop_short Q.heap.length post t
      { Q with heap := Q.heap ++ [{ value := v, next := none }] } hT hct1 f hf]
  · exact hswing
  · have hlinked := hc.link (x := ({ value := v, next := none } : LockFree.node_t))
      (m := { value := ln.value, next := some Q.heap.length }) rfl rfl
    have e : pre ++ t :: post ++ [Q.heap.length] = (pre ++ l0) ++ [last, Q.heap.length] := by
      rw [show pre ++ t :: post ++ [Q.heap.length] = (pre ++ t :: post) ++ [Q.heap.length] by
        simp, hwhole]
      simp
    rw [e]
    rw [← hH] at hlinked
    exact walk_length_eq_some_iff.2 hlinked
  · exact getElem?_link_new hlt
  · intro a ha
    by_cases hal : a = last
    · subst hal
      rw [getElem?_link_tail hlt, hln]
      rfl
    · rw [getElem?_link_old ha hal]

/-- C13 on the queue `lagTwo` (one node follows `Tail`): `enqueue(7)`
returns with two iterations and not with one, and the new node is linked
after the node of value 6. -/
theorem C13_solo_enqueue_lagging_tail_witness :
    LockFree.Shape LockFree.lagTwo ∧
    LockFree.enqueue 2 LockFree.lagTwo 7
      = .ok { heap := [⟨0, some 1⟩, ⟨5, some 2⟩, ⟨6, some 3⟩, ⟨7, none⟩],
              Head := some 0, Tail := some 3 } ∧
    LockFree.enqueue 1 LockFree.lagTwo 7 = .error .outOfFuel ∧
    ∃ pre t post, LockFree.nodes LockFree.lagTwo = some (pre ++ t :: post) ∧
      LockFree.lagTwo.Tail = some t ∧
      ∀ f, f ≤ post.length → LockFree.enqueue f LockFree.lagTwo 7 = .error .outOfFuel :=
  ⟨by decide, by decide, by decide,
    let ⟨pre, t, post, _, h1, h2, _, h4, _⟩ :=
      C13_solo_enqueue_lagging_tail LockFree.lagTwo 7 (by decide)
    ⟨pre, t, post, h1, h2, h4⟩⟩

/-- C14. After a successful lock-free `dequeue` the old sentinel is
unlinked. On every well-formed queue, if a `dequeue` run alone returns true,
then the list had a node `n` after the old `Head` `h`, the new `Head` is `n`,
the value returned is the value of `n`, the chain from the new `Head` is the
old chain without `h`, and `h` is not on it; the queue is still well formed.
And on such a queue `dequeue` does return true, within two iterations. -/
theorem C14_old_sentinel_unlinked (Q Q1 : LockFree.queue_t) (fuel : Nat) (pv x : Int)
    (hs : LockFree.Shape Q) (hd : LockFree.dequeue fuel Q pv = .ok (Q1, x, true)) :
    ∃ h n nn rest, Q.Head = some h ∧ LockFree.nodes Q = some (h :: n :: rest) ∧
      Q1.Head = some n ∧ Q1.heap[n]? = some nn ∧ nn.value = x ∧
      LockFree.nodes Q1 = some (n :: rest) ∧ h ∉ n :: rest ∧ LockFree.Shape Q1 ∧
      ∀ k pv2, ∃ Q2 x2, LockFree.dequeue (k + 2) Q pv2 = .ok (Q2, x2, true) := by
  obtain ⟨h, rest, t, hH, hc, hnodes, hT, ht⟩ := hs.chain
  have hnd : (h :: rest).Nodup := hc.nodup
  cases rest with
  | nil =>
    have hth : t = h := by simpa using ht
    subst hth
    cases fuel with
    | zero => cases hd
    | succ f =>
      rw [LockFree.dequeue_of_chain_nil hH hc hT f pv] at hd
      cases hd
  | cons n rest =>
    obtain ⟨_, hn, hhn, hc1⟩ := hc
    have hnext : hn.next = some n := hc1.1
    have hcn : NextChain LockFree.node_t.next Q.heap (some n) (n :: rest) := hnext ▸ hc1
    obtain ⟨nn, hnn, _⟩ := hc1.2
    have hne : h ≠ n := fun e => (List.nodup_cons.1 hnd).1 (by rw [e]; simp)
    have hnotin : h ∉ n :: rest := (List.nodup_cons.1 hnd).1
    by_cases hth : t = h
    · subst hth
      obtain ⟨h1, h2⟩ := LockFree.dequeue_of_lagging hH hT hhn hnext hnn hne pv
      match fuel, hd with
      | 0, hd => cases hd
      | 1, hd => rw [h1] at hd; cases hd
      | f + 2, hd =>
        rw [(h2 f).2] at hd
        cases hd
        refine ⟨t, n, nn, rest, hH, hnodes, rfl, hnn, rfl, ?_, hnotin, ?_, ?_⟩
        · exact walk_length_eq_some_iff.2 hcn
        · exact LockFree.shape_of_chain (Q := { Q with Head := some n, Tail := some n }) hcn
            rfl (List.mem_cons_self n rest)
        · intro k pv2
          exact ⟨_, _, ((LockFree.dequeue_of_lagging hH hT hhn hnext hnn hne pv2).2 k).2⟩
    · have hne2 : h ≠ t := fun e => hth e.symm
      match fuel, hd with
      | 0, hd => cases hd
      | f + 1, hd =>
        rw [LockFree.dequeue_of_ahead hH hT hhn hnext hnn hne2 f pv] at hd
        cases hd
        have htin : t ∈ n :: rest := by
          rcases List.mem_cons.1 ht with e | e
          · exact absurd e hth
          · exact e
        refine ⟨h, n, nn, rest, hH, hnodes, rfl, hnn, rfl, ?_, hnotin, ?_, ?_⟩
        · exact walk_length_eq_some_iff.2 hcn
        · exact LockFree.shape_of_chain (Q := { Q with Head := some n }) hcn hT htin
        · intro k pv2
          exact ⟨_, _, LockFree.dequeue_of_ahead hH hT hhn hnext hnn hne2 (k + 1) pv2⟩

/-- C14 on the queue `lagTwo`, with 9 in the slot: `dequeue` returns true
with 5, the new `Head` is the node of value 5 at address 1, and the old
sentinel at address 0 is not on the chain `[1, 2]` from it. -/
theorem C14_old_sentinel_unlinked_witness :
    LockFree.Shape LockFree.lagTwo ∧
    LockFree.dequeue 1 LockFree.lagTwo 9
      = .ok ({ LockFree.lagTwo with Head := some 1 }, 5, true) ∧
    ∃ h n nn rest, LockFree.lagTwo.Head = some h ∧
      LockFree.nodes LockFree.lagTwo = some (h :: n :: rest) ∧
      ({ LockFree.lagTwo with Head := some 1 } : LockFree.queue_t).Head = some n ∧
      ({ LockFree.lagTwo with Head := some 1 } : LockFree.queue_t).heap[n]? = some nn ∧
      nn.value = 5 ∧
      LockFree.nodes { LockFree.lagTwo with Head := some 1 } = some (n :: rest) ∧
      h ∉ n :: rest ∧ LockFree.Shape { LockFree.lagTwo with Head := some 1 } ∧
      ∀ k pv2, ∃ Q2 x2, LockFree.dequeue (k + 2) LockFree.lagTwo pv2 = .ok (Q2, x2, true) :=
  ⟨by decide, by decide,
    C14_old_sentinel_unlinked LockFree.lagTwo { LockFree.lagTwo with Head := some 1 } 1 9 5
      (by decide) (by decide)⟩
